import Mathlib

/-!
CordellDBMS descriptor tables (PDT / DDT)

A shallow embedding of `src/kernel/arch/pageman/pdt.c` and
`src/kernel/arch/dirman/ddt.c`: the two static descriptor tables, their
admission (`add`), lookup (`find`), `sync`, `clear` and the two flush entry
points.

Memory is explicit.  A non-null pointer is a natural number, `none` is `NULL`,
the heap maps live addresses to objects, and every function returns
`Option`: `none` stands for undefined behaviour of the C code (a null or
dangling pointer is dereferenced, or the static array is indexed out of
bounds).  `#ifndef NO_PDT` / `NO_DDT` bodies are the ones embedded (the
tables are compiled in).
-/

namespace CordellDBMS

/-! ## Data model -/

/-- Modelled from the spec: `PAGE_NAME_SIZE` lives in pageman.h, which is not
part of the sources; the spec fixes object names at 8 bytes. -/
def PAGE_NAME_SIZE : Nat := 8

/-- Modelled from the spec: `DIRECTORY_NAME_SIZE` lives in dirman.h, which is
not part of the sources; the spec fixes object names at 8 bytes. -/
def DIRECTORY_NAME_SIZE : Nat := 8

/-- Modelled from the spec: the lock indicator of an object,
`state ∈ {UNLOCKED, LOCKED}` (the constants are declared in absent headers). -/
inductive lock_state where
  | UNLOCKED
  | LOCKED
  deriving DecidableEq, Repr

open lock_state

/-- Modelled from the spec: the part of `page_t` / `directory_t` (declared in
pageman.h / dirman.h, absent from the sources) that the descriptor tables
touch: `header->name` (bytes), `lock`, and the owner of the lock
(`none` is the sentinel `NONE`). -/
structure object where
  name : List Nat
  lock : lock_state
  lock_owner : Option Nat
  deriving DecidableEq, Repr

/-- The memory one descriptor table works on.

* `table` is the static array (`PGM_PDT` / `DRM_DDT`); its length is
  `PDT_SIZE` / `DDT_SIZE`, a constant of an absent header.
* `heap` gives the live objects by address.
* `save_calls` records every call of the save routine, in order, with the
  object as it was when saved.
* `store_rc` is the status the object store answers when asked to write an
  object, `load_rc` what it answers when asked to load a name (the address
  and contents of the decoded object, or `none` for `NULL`).
* `lock_null_rc` is what the lock routine answers for a `NULL` reference.
  Spec §4.3 has it `Acquired` (1); spec §9 leaves it to be confirmed against
  the sources, so properties that rely on it assume `lock_null_rc = 1`. -/
structure State where
  table : List (Option Nat)
  heap : Nat → Option object
  save_calls : List (Nat × object)
  store_rc : object → Int
  load_rc : List Nat → Option (Nat × object)
  lock_null_rc : Int

/-- A return code together with the memory after the call; `none` is
undefined behaviour. -/
abbrev Outcome := Option (Int × State)

/-! ## libc -/

/-- The libc `memcmp` on byte buffers: the difference of the first pair of
differing bytes among the first `n`, `0` when there is none.  A buffer that
ends early compares as smaller. -/
def memcmp : List Nat → List Nat → Nat → Int
  | _, _, 0 => 0
  | [], [], _ + 1 => 0
  | [], _ :: _, _ + 1 => -1
  | _ :: _, [], _ + 1 => 1
  | a :: as, b :: bs, n + 1 => if a = b then memcmp as bs n else (a : Int) - (b : Int)

/-- The libc `strncmp`: like `memcmp`, but the comparison also stops, with
result `0`, after a pair of equal zero bytes.  The end of a list reads as the
terminating zero byte. -/
def strncmp : List Nat → List Nat → Nat → Int
  | _, _, 0 => 0
  | s1, s2, n + 1 =>
    if s1.headD 0 ≠ s2.headD 0 then (s1.headD 0 : Int) - (s2.headD 0 : Int)
    else if s1.headD 0 = 0 then 0
    else strncmp s1.tail s2.tail n

/-! ## Collaborators of the tables -/

/-- Modelled from the spec: `PGM_lock_page` is declared in pageman.h and its
body is not part of the sources.  Spec §4.3: `try_lock` on a null reference
does nothing and answers `lock_null_rc` (`Acquired`, 1, in the spec); locking
an object that is `LOCKED` by
another owner is `AlreadyHeldByOther` (-1); otherwise the object becomes
`LOCKED` by the caller and the answer is `Acquired` (1). -/
def PGM_lock_page (page : Option Nat) (owner : Nat) (m : State) : Outcome :=
  match page with
  | none => some (m.lock_null_rc, m)
  | some a =>
    match m.heap a with
    | none => none
    | some o =>
      if o.lock = LOCKED ∧ o.lock_owner ≠ some owner then some (-1, m)
      else some (1, { m with
        heap := Function.update m.heap a (some { o with lock := LOCKED, lock_owner := some owner }) })

/-- Modelled from the spec: `PGM_save_page` is declared in pageman.h and its
body is not part of the sources.  Spec §4.5: `save(obj, path?)` encodes the
object and writes it to the store, answering `Ok` or `IoError`; it does not
touch the cache.  The call is recorded and the store's answer returned. -/
def PGM_save_page (page : Nat) (m : State) : Outcome :=
  match m.heap page with
  | none => none
  | some o => some (m.store_rc o, { m with save_calls := m.save_calls ++ [(page, o)] })

/-- Modelled from the spec: `PGM_free_page` is declared in pageman.h and its
body is not part of the sources.  Spec §4.4: "free the in-memory object". -/
def PGM_free_page (page : Nat) (m : State) : Outcome :=
  match m.heap page with
  | none => none
  | some _ => some (1, { m with heap := Function.update m.heap page none })

/-- Modelled from the spec: `PGM_load_page` is declared in pageman.h and its
body is not part of the sources.  The store is asked for the name; a decoded
object is placed at the address the store names and that address is the
result, `NULL` otherwise. -/
def PGM_load_page (name : List Nat) (m : State) : Option (Option Nat × State) :=
  match m.load_rc name with
  | none => some (none, m)
  | some (a, o) => some (some a, { m with heap := Function.update m.heap a (some o) })

/-- Modelled from the spec: `DRM_lock_directory` (dirman.h), the directory
instance of the lock registry of spec §4.3; see `PGM_lock_page`. -/
def DRM_lock_directory (directory : Option Nat) (owner : Nat) (m : State) : Outcome :=
  match directory with
  | none => some (m.lock_null_rc, m)
  | some a =>
    match m.heap a with
    | none => none
    | some o =>
      if o.lock = LOCKED ∧ o.lock_owner ≠ some owner then some (-1, m)
      else some (1, { m with
        heap := Function.update m.heap a (some { o with lock := LOCKED, lock_owner := some owner }) })

/-- Modelled from the spec: `DRM_save_directory` (dirman.h); see
`PGM_save_page`. -/
def DRM_save_directory (directory : Nat) (m : State) : Outcome :=
  match m.heap directory with
  | none => none
  | some o => some (m.store_rc o, { m with save_calls := m.save_calls ++ [(directory, o)] })

/-- Modelled from the spec: `DRM_free_directory` (dirman.h); see
`PGM_free_page`. -/
def DRM_free_directory (directory : Nat) (m : State) : Outcome :=
  match m.heap directory with
  | none => none
  | some _ => some (1, { m with heap := Function.update m.heap directory none })

/-- Modelled from the spec: `DRM_load_directory` (dirman.h); see
`PGM_load_page`. -/
def DRM_load_directory (name : List Nat) (m : State) : Option (Option Nat × State) :=
  match m.load_rc name with
  | none => some (none, m)
  | some (a, o) => some (some a, { m with heap := Function.update m.heap a (some o) })

/-! ## pdt.c -/

/-- `PGM_PDT_flush_index` (pdt.c:114-125). -/
def PGM_PDT_flush_index (index : Nat) (m : State) : Outcome :=
  match m.table[index]? with
  | none => none
  | some none => some (-1, m)
  | some (some p) =>
    match PGM_save_page p m with
    | none => none
    | some (_, m1) =>
      match PGM_free_page p m1 with
      | none => none
      | some (_, m2) => some (1, { m2 with table := m2.table.set index none })

/-- The scan of `PGM_PDT_add_page` (pdt.c:26-36) from index `i` on, `slots`
being `PGM_PDT[i..]`: the value of `current` after the loop. -/
def PGM_PDT_add_scan (m : State) : List (Option Nat) → Nat → Option Nat
  | [], _ => some 0
  | none :: _, i => some i
  | some p :: rest, i =>
    match m.heap p with
    | none => none
    | some o => if o.lock = LOCKED then PGM_PDT_add_scan m rest (i + 1) else some i

/-- `PGM_PDT_add_page` (pdt.c:24-48); `tid` is `omp_get_thread_num()`. -/
def PGM_PDT_add_page (page : Option Nat) (tid : Nat) (m : State) : Outcome :=
  match PGM_PDT_add_scan m m.table 0 with
  | none => none
  | some current =>
    match m.table[current]? with
    | none => none
    | some slot =>
      match PGM_lock_page slot tid m with
      | none => none
      | some (rc, m1) =>
        if rc ≠ -1 then
          match m1.table[current]? with
          | none => none
          | some none => some (-1, m1)
          | some (some q) =>
            match page with
            | none => none
            | some pg =>
              match m1.heap pg, m1.heap q with
              | some o, some c =>
                if memcmp o.name c.name PAGE_NAME_SIZE ≠ 0 then
                  match PGM_PDT_flush_index current m1 with
                  | none => none
                  | some (_, m2) => some (1, { m2 with table := m2.table.set current page })
                else some (1, m1)
              | _, _ => none
        else some (1, m1)

/-- The loop of `PGM_PDT_find_page` (pdt.c:52-57) over `slots`. -/
def PGM_PDT_find_loop (m : State) (name : Option (List Nat)) : List (Option Nat) → Option (Option Nat)
  | [] => some none
  | none :: rest => PGM_PDT_find_loop m name rest
  | some p :: rest =>
    match m.heap p, name with
    | some o, some s =>
      if strncmp o.name s PAGE_NAME_SIZE = 0 then some (some p)
      else PGM_PDT_find_loop m name rest
    | _, _ => none

/-- `PGM_PDT_find_page` (pdt.c:50-61); `name = none` is a `NULL` string. -/
def PGM_PDT_find_page (name : Option (List Nat)) (m : State) : Option (Option Nat) :=
  PGM_PDT_find_loop m name m.table

/-- The loop of `PGM_PDT_sync` (pdt.c:65-71) with `k` iterations left, at
index `i`. -/
def PGM_PDT_sync_loop (tid : Nat) : Nat → Nat → State → Outcome
  | 0, _, m => some (1, m)
  | k + 1, i, m =>
    match m.table[i]? with
    | none => none
    | some none => PGM_PDT_sync_loop tid k (i + 1) m
    | some (some p) =>
      match PGM_lock_page (some p) tid m with
      | none => none
      | some (rc, m1) =>
        if rc = 1 then
          match PGM_PDT_flush_index i m1 with
          | none => none
          | some (_, m2) =>
            match m2.table[i]? with
            | some (some q) =>
              match m2.heap q with
              | none => none
              | some o =>
                match PGM_load_page o.name m2 with
                | none => none
                | some (r, m3) =>
                  PGM_PDT_sync_loop tid k (i + 1) { m3 with table := m3.table.set i r }
            | _ => none
        else some (-1, m1)

/-- `PGM_PDT_sync` (pdt.c:63-75). -/
def PGM_PDT_sync (tid : Nat) (m : State) : Outcome :=
  PGM_PDT_sync_loop tid m.table.length 0 m

/-- The loop of `PGM_PDT_clear` (pdt.c:79-86) with `k` iterations left, at
index `i`.  The result of `PGM_PDT_flush_index` is dropped, as in the
source. -/
def PGM_PDT_clear_loop (tid : Nat) : Nat → Nat → State → Outcome
  | 0, _, m => some (1, m)
  | k + 1, i, m =>
    match m.table[i]? with
    | none => none
    | some slot =>
      match PGM_lock_page slot tid m with
      | none => none
      | some (rc, m1) =>
        if rc = 1 then
          match PGM_PDT_flush_index i m1 with
          | none => none
          | some (_, m2) => PGM_PDT_clear_loop tid k (i + 1) m2
        else some (-1, m1)

/-- `PGM_PDT_clear` (pdt.c:77-90). -/
def PGM_PDT_clear (tid : Nat) (m : State) : Outcome :=
  PGM_PDT_clear_loop tid m.table.length 0 m

/-- The search of `PGM_PDT_flush_page` (pdt.c:96-103) from index `i` on:
`none` is `index = -1`. -/
def PGM_PDT_flush_search (page : Nat) : List (Option Nat) → Nat → Option Nat
  | [], _ => none
  | none :: rest, i => PGM_PDT_flush_search page rest (i + 1)
  | some p :: rest, i => if page = p then some i else PGM_PDT_flush_search page rest (i + 1)

/-- `PGM_PDT_flush_page` (pdt.c:92-112). -/
def PGM_PDT_flush_page (page : Option Nat) (m : State) : Outcome :=
  match page with
  | none => some (-1, m)
  | some pg =>
    match PGM_PDT_flush_search pg m.table 0 with
    | some index =>
      match PGM_PDT_flush_index index m with
      | none => none
      | some (_, m1) => some (1, m1)
    | none =>
      match PGM_free_page pg m with
      | none => none
      | some (_, m1) => some (1, m1)

/-! ## ddt.c -/

/-- `DRM_DDT_flush_index` (ddt.c:115-125). -/
def DRM_DDT_flush_index (index : Nat) (m : State) : Outcome :=
  match m.table[index]? with
  | none => none
  | some none => some (-1, m)
  | some (some p) =>
    match DRM_save_directory p m with
    | none => none
    | some (_, m1) =>
      match DRM_free_directory p m1 with
      | none => none
      | some (_, m2) => some (1, { m2 with table := m2.table.set index none })

/-- The scan of `DRM_DDT_add_directory` (ddt.c:26-36) from index `i` on, `slots`
being `DRM_DDT[i..]`: the value of `current` after the loop. -/
def DRM_DDT_add_scan (m : State) : List (Option Nat) → Nat → Option Nat
  | [], _ => some 0
  | none :: _, i => some i
  | some p :: rest, i =>
    match m.heap p with
    | none => none
    | some o => if o.lock = LOCKED then DRM_DDT_add_scan m rest (i + 1) else some i

/-- `DRM_DDT_add_directory` (ddt.c:24-48); `tid` is `omp_get_thread_num()`. -/
def DRM_DDT_add_directory (directory : Option Nat) (tid : Nat) (m : State) : Outcome :=
  match DRM_DDT_add_scan m m.table 0 with
  | none => none
  | some current =>
    match m.table[current]? with
    | none => none
    | some slot =>
      match DRM_lock_directory slot tid m with
      | none => none
      | some (rc, m1) =>
        if rc ≠ -1 then
          match m1.table[current]? with
          | none => none
          | some none => some (-1, m1)
          | some (some q) =>
            match directory with
            | none => none
            | some pg =>
              match m1.heap pg, m1.heap q with
              | some o, some c =>
                if memcmp o.name c.name DIRECTORY_NAME_SIZE ≠ 0 then
                  match DRM_DDT_flush_index current m1 with
                  | none => none
                  | some (_, m2) => some (1, { m2 with table := m2.table.set current directory })
                else some (1, m1)
              | _, _ => none
        else some (1, m1)

/-- The loop of `DRM_DDT_find_directory` (ddt.c:53-58) over `slots`. -/
def DRM_DDT_find_loop (m : State) (name : Option (List Nat)) : List (Option Nat) → Option (Option Nat)
  | [] => some none
  | none :: rest => DRM_DDT_find_loop m name rest
  | some p :: rest =>
    match m.heap p, name with
    | some o, some s =>
      if strncmp o.name s DIRECTORY_NAME_SIZE = 0 then some (some p)
      else DRM_DDT_find_loop m name rest
    | _, _ => none

/-- `DRM_DDT_find_directory` (ddt.c:50-62); `name = none` is a `NULL` string,
which the directory table answers with `NULL` before the loop. -/
def DRM_DDT_find_directory (name : Option (List Nat)) (m : State) : Option (Option Nat) :=
  match name with
  | none => some none
  | some _ => DRM_DDT_find_loop m name m.table

/-- The loop of `DRM_DDT_sync` (ddt.c:66-72) with `k` iterations left, at
index `i`. -/
def DRM_DDT_sync_loop (tid : Nat) : Nat → Nat → State → Outcome
  | 0, _, m => some (1, m)
  | k + 1, i, m =>
    match m.table[i]? with
    | none => none
    | some none => DRM_DDT_sync_loop tid k (i + 1) m
    | some (some p) =>
      match DRM_lock_directory (some p) tid m with
      | none => none
      | some (rc, m1) =>
        if rc = 1 then
          match DRM_DDT_flush_index i m1 with
          | none => none
          | some (_, m2) =>
            match m2.table[i]? with
            | some (some q) =>
              match m2.heap q with
              | none => none
              | some o =>
                match DRM_load_directory o.name m2 with
                | none => none
                | some (r, m3) =>
                  DRM_DDT_sync_loop tid k (i + 1) { m3 with table := m3.table.set i r }
            | _ => none
        else some (-1, m1)

/-- `DRM_DDT_sync` (ddt.c:64-76). -/
def DRM_DDT_sync (tid : Nat) (m : State) : Outcome :=
  DRM_DDT_sync_loop tid m.table.length 0 m

/-- The loop of `DRM_DDT_clear` (ddt.c:80-87) with `k` iterations left, at
index `i`.  The result of `DRM_DDT_flush_index` is dropped, as in the
source. -/
def DRM_DDT_clear_loop (tid : Nat) : Nat → Nat → State → Outcome
  | 0, _, m => some (1, m)
  | k + 1, i, m =>
    match m.table[i]? with
    | none => none
    | some slot =>
      match DRM_lock_directory slot tid m with
      | none => none
      | some (rc, m1) =>
        if rc = 1 then
          match DRM_DDT_flush_index i m1 with
          | none => none
          | some (_, m2) => DRM_DDT_clear_loop tid k (i + 1) m2
        else some (-1, m1)

/-- `DRM_DDT_clear` (ddt.c:78-91). -/
def DRM_DDT_clear (tid : Nat) (m : State) : Outcome :=
  DRM_DDT_clear_loop tid m.table.length 0 m

/-- The search of `DRM_DDT_flush_directory` (ddt.c:97-104) from index `i` on:
`none` is `index = -1`. -/
def DRM_DDT_flush_search (directory : Nat) : List (Option Nat) → Nat → Option Nat
  | [], _ => none
  | none :: rest, i => DRM_DDT_flush_search directory rest (i + 1)
  | some p :: rest, i => if directory = p then some i else DRM_DDT_flush_search directory rest (i + 1)

/-- `DRM_DDT_flush_directory` (ddt.c:93-113). -/
def DRM_DDT_flush_directory (directory : Option Nat) (m : State) : Outcome :=
  match directory with
  | none => some (-1, m)
  | some pg =>
    match DRM_DDT_flush_search pg m.table 0 with
    | some index =>
      match DRM_DDT_flush_index index m with
      | none => none
      | some (_, m1) => some (1, m1)
    | none =>
      match DRM_free_directory pg m with
      | none => none
      | some (_, m1) => some (1, m1)

/-! ## The two instances and the vocabulary of the properties -/

/-- The entry points of one descriptor table.  The spec describes a single
generic cache "instantiated twice"; `PDT` and `DDT` below are the two
instances found in the sources. -/
structure descriptor_table where
  add_scan : State → List (Option Nat) → Nat → Option Nat
  add : Option Nat → Nat → State → Outcome
  find : Option (List Nat) → State → Option (Option Nat)
  sync : Nat → State → Outcome
  clear : Nat → State → Outcome
  flush : Option Nat → State → Outcome
  flush_index : Nat → State → Outcome

/-- The page descriptor table of pdt.c. -/
def PDT : descriptor_table where
  add_scan := PGM_PDT_add_scan
  add := PGM_PDT_add_page
  find := PGM_PDT_find_page
  sync := PGM_PDT_sync
  clear := PGM_PDT_clear
  flush := PGM_PDT_flush_page
  flush_index := PGM_PDT_flush_index

/-- The directory descriptor table of ddt.c. -/
def DDT : descriptor_table where
  add_scan := DRM_DDT_add_scan
  add := DRM_DDT_add_directory
  find := DRM_DDT_find_directory
  sync := DRM_DDT_sync
  clear := DRM_DDT_clear
  flush := DRM_DDT_flush_directory
  flush_index := DRM_DDT_flush_index

/-- Slot `i` of the table holds the pointer `p`, and `p` is the live object
`o`. -/
def holds (m : State) (i p : Nat) (o : object) : Prop :=
  m.table[i]? = some (some p) ∧ m.heap p = some o

/-- Every occupied slot points to a live object. -/
def no_dangling (m : State) : Prop :=
  ∀ (i p : Nat), m.table[i]? = some (some p) → ∃ o, m.heap p = some o

/-- The 8-byte names of two objects are equal. -/
def same_name (a b : object) : Prop :=
  a.name.take PAGE_NAME_SIZE = b.name.take PAGE_NAME_SIZE

/-- The invariant of spec §3 and §8.1: no two occupied slots hold objects with
equal names. -/
def name_unique (m : State) : Prop :=
  ∀ (i j p q : Nat) (a b : object), i ≠ j → holds m i p a → holds m j q b → ¬ same_name a b

/-- The object `o` is `LOCKED` by a thread other than `tid`. -/
def locked_by_other (o : object) (tid : Nat) : Prop :=
  o.lock = LOCKED ∧ o.lock_owner ≠ some tid

/-- The object `o` after thread `tid` has acquired its lock. -/
def locked_for (o : object) (tid : Nat) : object :=
  { o with lock := LOCKED, lock_owner := some tid }

/-! ## Further vocabulary: well-formed tables, call sequences -/

/-- No object sits in two slots: every occupied slot owns its object (spec §5,
"each non-empty slot exclusively owns its object"). -/
def no_alias (m : State) : Prop :=
  ∀ (i j p : Nat), m.table[i]? = some (some p) → m.table[j]? = some (some p) → i = j

/-- Every slot of the table is empty, as in the initial contents
`{ NULL }` of the static array. -/
def all_empty (m : State) : Prop :=
  ∀ s ∈ m.table, s = none

/-- The save calls a caller `tid` causes by locking and flushing the slots
`slots` one after the other: one entry per occupied slot, in slot order, the
object recorded as locked by the caller. -/
def flushed (m : State) (tid : Nat) (slots : List (Option Nat)) : List (Nat × object) :=
  slots.filterMap (fun s =>
    match s with
    | none => none
    | some p => (m.heap p).map (fun o => (p, locked_for o tid)))

/-- One call of an entry point that can write to the table. -/
inductive call where
  | add (page : Option Nat) (tid : Nat)
  | flush_index (index : Nat)
  | flush (page : Option Nat)
  | sync (tid : Nat)
  | clear (tid : Nat)

/-- The outcome of one call on table `T`. -/
def step (T : descriptor_table) (c : call) (m : State) : Outcome :=
  match c with
  | call.add page tid => T.add page tid m
  | call.flush_index index => T.flush_index index m
  | call.flush page => T.flush page m
  | call.sync tid => T.sync tid m
  | call.clear tid => T.clear tid m

/-- The memory after a sequence of calls, return codes dropped; `none` as soon
as one call is undefined. -/
def run (T : descriptor_table) : List call → State → Option State
  | [], m => some m
  | c :: cs, m =>
    match step T c m with
    | none => none
    | some (_, m1) => run T cs m1

/-- The calls that are defined on a table of `n` empty slots whatever the
heap: `add` needs a slot 0 to look at, `flush_index` an index inside the
array, and `flush_object` is given `NULL` (a non-null argument must be a live
object, which depends on the calls made before). -/
def defined_on_empty (n : Nat) : call → Prop
  | call.add _ _ => 0 < n
  | call.flush_index index => index < n
  | call.flush page => page = none
  | call.sync _ => True
  | call.clear _ => True

/-! ## Example memories -/

/-- A heap given by a finite list of (address, object) pairs. -/
def heap_of (l : List (Nat × object)) : Nat → Option object :=
  fun a => l.lookup a

/-- A memory with the given table and live objects, nothing saved yet, a
store that answers every write with `rc` and finds no name, and a lock
routine that answers 1 for `NULL`. -/
def memory (t : List (Option Nat)) (l : List (Nat × object)) (rc : Int) : State where
  table := t
  heap := heap_of l
  save_calls := []
  store_rc := fun _ => rc
  load_rc := fun _ => none
  lock_null_rc := 1

/-- The name "AAAAAAAA". -/
def name_A : List Nat := [65, 65, 65, 65, 65, 65, 65, 65]

/-- The name "BBBBBBBB". -/
def name_B : List Nat := [66, 66, 66, 66, 66, 66, 66, 66]

/-- A name with a zero byte in second place. -/
def name_a0x : List Nat := [97, 0, 1, 1, 1, 1, 1, 1]

/-- A name that agrees with `name_a0x` up to the zero byte only. -/
def name_a0y : List Nat := [97, 0, 2, 2, 2, 2, 2, 2]

instance (o : object) (tid : Nat) : Decidable (locked_by_other o tid) :=
  inferInstanceAs (Decidable (_ ∧ _))

instance (a b : object) : Decidable (same_name a b) :=
  inferInstanceAs (Decidable (_ = _))

/-- Slot 0 holds an unlocked "AAAAAAAA", slot 1 is empty; the object at
address 3 is an unlocked "BBBBBBBB" that is not cached. -/
def mem_unlocked_then_empty : State :=
  memory [some 1, none] [(1, ⟨name_A, UNLOCKED, none⟩), (3, ⟨name_B, UNLOCKED, none⟩)] 1

/-- A one-slot table whose object is `LOCKED` by thread 7; the object at
address 3 is not cached. -/
def mem_all_locked : State :=
  memory [some 1] [(1, ⟨name_A, LOCKED, some 7⟩), (3, ⟨name_B, UNLOCKED, none⟩)] 1

/-- A table of two empty slots (the initial contents of the static array);
the object at address 3 is not cached. -/
def mem_two_empty : State :=
  memory [none, none] [(3, ⟨name_A, UNLOCKED, none⟩)] 1

/-- Slot 0 holds an object `LOCKED` by thread 7, slot 1 is empty. -/
def mem_locked_then_empty : State :=
  memory [some 1, none] [(1, ⟨name_A, LOCKED, some 7⟩), (3, ⟨name_B, UNLOCKED, none⟩)] 1

/-- A full two-slot table: "AAAAAAAA" at address 1 and "BBBBBBBB" at address
2, both unlocked; the object at address 3 is a second "BBBBBBBB". -/
def mem_full_AB : State :=
  memory [some 1, some 2]
    [(1, ⟨name_A, UNLOCKED, none⟩), (2, ⟨name_B, UNLOCKED, none⟩), (3, ⟨name_B, UNLOCKED, none⟩)] 1

/-- The table of `mem_full_AB` with its two slots exchanged: "BBBBBBBB"
(address 2) in slot 0. -/
def mem_full_BA : State :=
  memory [some 2, some 1]
    [(1, ⟨name_A, UNLOCKED, none⟩), (2, ⟨name_B, UNLOCKED, none⟩), (3, ⟨name_B, UNLOCKED, none⟩)] 1

/-- A one-slot table holding an unlocked "AAAAAAAA" at address 1, with a store
that answers every write with -1 (an error). -/
def mem_store_fails : State :=
  memory [some 1] [(1, ⟨name_A, UNLOCKED, none⟩)] (-1)

/-- A two-slot table: slot 0 empty, slot 1 an unlocked "AAAAAAAA" at address
1; the store is sound. -/
def mem_empty_then_unlocked : State :=
  memory [none, some 1] [(1, ⟨name_A, UNLOCKED, none⟩)] 1

/-- A one-slot table holding an unlocked object named `name_a0x` at address
1; the object at address 3, named `name_a0y`, is not cached. -/
def mem_zero_byte : State :=
  memory [some 1] [(1, ⟨name_a0x, UNLOCKED, none⟩), (3, ⟨name_a0y, UNLOCKED, none⟩)] 1

/-- A full two-slot table, "AAAAAAAA" at address 1 and "BBBBBBBB" at address
2, both unlocked; the object at address 3 has a name of its own. -/
def mem_full_AB_fresh : State :=
  memory [some 1, some 2]
    [(1, ⟨name_A, UNLOCKED, none⟩), (2, ⟨name_B, UNLOCKED, none⟩), (3, ⟨name_a0x, UNLOCKED, none⟩)] 1

/-- A full two-slot table: "AAAAAAAA" at address 1 and an object named
`name_a0x` at address 2, both unlocked; the object at address 3, named
`name_a0y`, is not cached. -/
def mem_zero_byte_cached : State :=
  memory [some 1, some 2]
    [(1, ⟨name_A, UNLOCKED, none⟩), (2, ⟨name_a0x, UNLOCKED, none⟩),
      (3, ⟨name_a0y, UNLOCKED, none⟩)] 1

/-- Slot 0 holds an unlocked "AAAAAAAA" (address 1), slot 1 a "BBBBBBBB"
(address 2) that is `LOCKED` by thread 7. -/
def mem_unlocked_then_locked : State :=
  memory [some 1, some 2]
    [(1, ⟨name_A, UNLOCKED, none⟩), (2, ⟨name_B, LOCKED, some 7⟩), (3, ⟨name_B, UNLOCKED, none⟩)] 1

/-! ## The two tables are the same code -/

theorem DRM_lock_directory_eq : DRM_lock_directory = PGM_lock_page := rfl

theorem DRM_DDT_flush_index_eq : DRM_DDT_flush_index = PGM_PDT_flush_index := rfl

theorem DRM_DDT_add_scan_eq : DRM_DDT_add_scan = PGM_PDT_add_scan := by
  funext m l
  induction l with
  | nil => funext i; rfl
  | cons s rest ih =>
    funext i
    cases s with
    | none => rfl
    | some p => simp only [DRM_DDT_add_scan, PGM_PDT_add_scan, ih]

theorem DRM_DDT_add_directory_eq : DRM_DDT_add_directory = PGM_PDT_add_page := by
  funext page tid m
  simp only [DRM_DDT_add_directory, PGM_PDT_add_page, DRM_DDT_add_scan_eq,
    DRM_lock_directory_eq, DRM_DDT_flush_index_eq, DIRECTORY_NAME_SIZE, PAGE_NAME_SIZE]

theorem DRM_DDT_find_loop_eq : DRM_DDT_find_loop = PGM_PDT_find_loop := by
  funext m name l
  induction l with
  | nil => rfl
  | cons s rest ih =>
    cases s with
    | none => simp only [DRM_DDT_find_loop, PGM_PDT_find_loop, ih]
    | some p =>
      simp only [DRM_DDT_find_loop, PGM_PDT_find_loop, ih, DIRECTORY_NAME_SIZE, PAGE_NAME_SIZE]

theorem DRM_DDT_find_directory_some (s : List Nat) (m : State) :
    DRM_DDT_find_directory (some s) m = PGM_PDT_find_page (some s) m := by
  simp only [DRM_DDT_find_directory, PGM_PDT_find_page, DRM_DDT_find_loop_eq]

theorem DRM_DDT_sync_loop_eq : DRM_DDT_sync_loop = PGM_PDT_sync_loop := by
  funext tid k
  induction k with
  | zero => funext i m; rfl
  | succ k ih =>
    funext i m
    simp only [DRM_DDT_sync_loop, PGM_PDT_sync_loop, ih, DRM_lock_directory_eq,
      DRM_DDT_flush_index_eq]
    rfl

theorem DRM_DDT_sync_eq : DRM_DDT_sync = PGM_PDT_sync := by
  funext tid m
  simp only [DRM_DDT_sync, PGM_PDT_sync, DRM_DDT_sync_loop_eq]

theorem DRM_free_directory_eq : DRM_free_directory = PGM_free_page := rfl

theorem DRM_DDT_clear_loop_eq : DRM_DDT_clear_loop = PGM_PDT_clear_loop := by
  funext tid k
  induction k with
  | zero => funext i m; rfl
  | succ k ih =>
    funext i m
    simp only [DRM_DDT_clear_loop, PGM_PDT_clear_loop, ih, DRM_lock_directory_eq,
      DRM_DDT_flush_index_eq]

theorem DRM_DDT_clear_eq : DRM_DDT_clear = PGM_PDT_clear := by
  funext tid m
  simp only [DRM_DDT_clear, PGM_PDT_clear, DRM_DDT_clear_loop_eq]

theorem DRM_DDT_flush_search_eq : DRM_DDT_flush_search = PGM_PDT_flush_search := by
  funext page l
  induction l with
  | nil => funext i; rfl
  | cons s rest ih =>
    funext i
    cases s with
    | none => simp only [DRM_DDT_flush_search, PGM_PDT_flush_search, ih]
    | some p => simp only [DRM_DDT_flush_search, PGM_PDT_flush_search, ih]

theorem DRM_DDT_flush_directory_eq : DRM_DDT_flush_directory = PGM_PDT_flush_page := by
  funext page m
  simp only [DRM_DDT_flush_directory, PGM_PDT_flush_page, DRM_DDT_flush_search_eq,
    DRM_DDT_flush_index_eq, DRM_free_directory_eq]

theorem DDT_ops_eq :
    DDT.add_scan = PGM_PDT_add_scan ∧ DDT.add = PGM_PDT_add_page ∧
    DDT.sync = PGM_PDT_sync ∧ DDT.clear = PGM_PDT_clear ∧
    DDT.flush = PGM_PDT_flush_page ∧ DDT.flush_index = PGM_PDT_flush_index :=
  ⟨DRM_DDT_add_scan_eq, DRM_DDT_add_directory_eq, DRM_DDT_sync_eq, DRM_DDT_clear_eq,
    DRM_DDT_flush_directory_eq, DRM_DDT_flush_index_eq⟩

/-- Both tables run the page-table code: all entry points but `find` are
equal as functions. -/
theorem table_ops_eq (T : descriptor_table) (hT : T = PDT ∨ T = DDT) :
    T.add_scan = PGM_PDT_add_scan ∧ T.add = PGM_PDT_add_page ∧
    T.sync = PGM_PDT_sync ∧ T.clear = PGM_PDT_clear ∧
    T.flush = PGM_PDT_flush_page ∧ T.flush_index = PGM_PDT_flush_index := by
  rcases hT with rfl | rfl
  · exact ⟨rfl, rfl, rfl, rfl, rfl, rfl⟩
  · exact DDT_ops_eq

theorem table_find_eq (T : descriptor_table) (hT : T = PDT ∨ T = DDT) (s : List Nat)
    (m : State) : T.find (some s) m = PGM_PDT_find_page (some s) m := by
  rcases hT with rfl | rfl
  · rfl
  · exact DRM_DDT_find_directory_some s m

/-- On a table without occupied slot the lookup loop never compares a name. -/
theorem find_loop_all_empty (m : State) (name : Option (List Nat)) (l : List (Option Nat))
    (h : ∀ s ∈ l, s = none) : PGM_PDT_find_loop m name l = some none := by
  induction l with
  | nil => rfl
  | cons x rest ih =>
    have hx : x = none := h x (List.mem_cons_self x rest)
    subst hx
    simp only [PGM_PDT_find_loop]
    exact ih (fun s hs => h s (List.mem_cons_of_mem _ hs))

/-- With a `NULL` string the first occupied slot makes `strncmp` read through
the null pointer. -/
theorem find_loop_null_name (m : State) (l : List (Option Nat))
    (h : ∃ s ∈ l, s ≠ none) : PGM_PDT_find_loop m none l = none := by
  induction l with
  | nil =>
    obtain ⟨s, hs, _⟩ := h
    cases hs
  | cons x rest ih =>
    cases x with
    | none =>
      simp only [PGM_PDT_find_loop]
      apply ih
      obtain ⟨s, hs, hne⟩ := h
      rcases List.mem_cons.1 hs with rfl | hs
      · exact absurd rfl hne
      · exact ⟨s, hs, hne⟩
    | some p =>
      cases hp : m.heap p <;> simp [PGM_PDT_find_loop, hp]

/-! ## libc facts -/

theorem memcmp_eq_zero_iff (a b : List Nat) (n : Nat) :
    memcmp a b n = 0 ↔ a.take n = b.take n := by
  induction n generalizing a b with
  | zero => simp [memcmp]
  | succ n ih =>
    cases a with
    | nil => cases b <;> simp [memcmp]
    | cons x xs =>
      cases b with
      | nil => simp [memcmp]
      | cons y ys =>
        by_cases hxy : x = y
        · simp [memcmp, hxy, ih]
        · have : (x : Int) - (y : Int) ≠ 0 := by omega
          simp [memcmp, hxy, this]

theorem memcmp_name_ne_zero_iff (a b : object) :
    memcmp a.name b.name PAGE_NAME_SIZE ≠ 0 ↔ ¬ same_name a b := by
  simp only [same_name, ne_eq, memcmp_eq_zero_iff]

theorem strncmp_self (s : List Nat) (n : Nat) : strncmp s s n = 0 := by
  induction n generalizing s with
  | zero => simp [strncmp]
  | succ n ih =>
    unfold strncmp
    simp only [ne_eq, not_true_eq_false, if_false, ih, ite_self]

theorem strncmp_of_take_eq (a b : List Nat) (n : Nat) (h : a.take n = b.take n) :
    strncmp a b n = 0 := by
  induction n generalizing a b with
  | zero => simp [strncmp]
  | succ n ih =>
    cases a with
    | nil =>
      cases b with
      | nil => simp [strncmp]
      | cons y ys => simp at h
    | cons x xs =>
      cases b with
      | nil => simp at h
      | cons y ys =>
        simp only [List.take_succ_cons, List.cons.injEq] at h
        obtain ⟨hxy, ht⟩ := h
        subst hxy
        unfold strncmp
        simp only [List.headD_cons, ne_eq, not_true_eq_false, if_false, List.tail_cons, ih xs ys ht,
          ite_self]

theorem take_eq_of_strncmp (a b : List Nat) (n : Nat) (ha : 0 ∉ a) (hb : 0 ∉ b)
    (h : strncmp a b n = 0) : a.take n = b.take n := by
  induction n generalizing a b with
  | zero => simp
  | succ n ih =>
    cases a with
    | nil =>
      cases b with
      | nil => rfl
      | cons y ys =>
        have hy : y ≠ 0 := fun h0 => hb (by simp [h0])
        unfold strncmp at h
        simp only [List.headD_nil, List.headD_cons, ne_eq] at h
        have hne : ¬ (0 : Nat) = y := fun h0 => hy h0.symm
        simp only [hne, not_false_eq_true, if_true] at h
        omega
    | cons x xs =>
      have hx : x ≠ 0 := fun h0 => ha (by simp [h0])
      cases b with
      | nil =>
        unfold strncmp at h
        simp only [List.headD_nil, List.headD_cons, ne_eq, hx, not_false_eq_true, if_true] at h
        omega
      | cons y ys =>
        unfold strncmp at h
        simp only [List.headD_cons, ne_eq, List.tail_cons] at h
        by_cases hxy : x = y
        · subst hxy
          simp only [not_true_eq_false, if_false, hx] at h
          simp only [List.take_succ_cons, List.cons.injEq, true_and]
          exact ih xs ys (fun hm => ha (List.mem_cons_of_mem _ hm))
            (fun hm => hb (List.mem_cons_of_mem _ hm)) h
        · simp only [hxy, not_false_eq_true, if_true] at h
          omega

/-! ## The collaborators, case by case -/

theorem lock_page_null (tid : Nat) (m : State) :
    PGM_lock_page none tid m = some (m.lock_null_rc, m) := rfl

theorem lock_page_acquired (m : State) (p tid : Nat) (o : object)
    (hp : m.heap p = some o) (hfree : ¬ locked_by_other o tid) :
    PGM_lock_page (some p) tid m
      = some (1, { m with heap := Function.update m.heap p (some (locked_for o tid)) }) := by
  unfold locked_by_other at hfree
  simp only [PGM_lock_page, hp, if_neg hfree, locked_for]

theorem lock_page_refused (m : State) (p tid : Nat) (o : object)
    (hp : m.heap p = some o) (hbusy : locked_by_other o tid) :
    PGM_lock_page (some p) tid m = some (-1, m) := by
  unfold locked_by_other at hbusy
  simp only [PGM_lock_page, hp, if_pos hbusy]

theorem flush_index_empty (m : State) (i : Nat) (h : m.table[i]? = some none) :
    PGM_PDT_flush_index i m = some (-1, m) := by
  simp only [PGM_PDT_flush_index, h]

theorem flush_index_occupied (m : State) (i p : Nat) (o : object) (h : holds m i p o) :
    PGM_PDT_flush_index i m
      = some (1, { m with
          table := m.table.set i none
          heap := Function.update m.heap p none
          save_calls := m.save_calls ++ [(p, o)] }) := by
  obtain ⟨hs, hp⟩ := h
  simp only [PGM_PDT_flush_index, hs, PGM_save_page, hp, PGM_free_page]

theorem holds_lt {m : State} {i p : Nat} {o : object} (h : holds m i p o) :
    i < m.table.length := by
  by_contra hge
  have h1 := h.1
  rw [List.getElem?_eq_none (Nat.le_of_not_lt hge)] at h1
  cases h1

/-! ## The admission scan -/

/-- The scan passes over slots that hold `LOCKED` objects and stops at the
first empty slot behind them. -/
theorem add_scan_stops_at_empty (m : State) (l : List (Option Nat)) (e i : Nat)
    (hempty : l[e]? = some none)
    (hbefore : ∀ j, j < e → ∃ p o, l[j]? = some (some p) ∧ m.heap p = some o ∧ o.lock = LOCKED) :
    PGM_PDT_add_scan m l i = some (i + e) := by
  induction e generalizing l i with
  | zero =>
    cases l with
    | nil => simp at hempty
    | cons s rest =>
      simp only [List.getElem?_cons_zero, Option.some.injEq] at hempty
      subst hempty
      simp [PGM_PDT_add_scan]
  | succ e ih =>
    cases l with
    | nil => simp at hempty
    | cons s rest =>
      obtain ⟨p, o, hs, hp, hl⟩ := hbefore 0 (Nat.succ_pos e)
      simp only [List.getElem?_cons_zero, Option.some.injEq] at hs
      subst hs
      simp only [List.getElem?_cons_succ] at hempty
      have hrest : ∀ j, j < e → ∃ p o, rest[j]? = some (some p) ∧ m.heap p = some o ∧ o.lock = LOCKED := by
        intro j hj
        have := hbefore (j + 1) (Nat.succ_lt_succ hj)
        simpa only [List.getElem?_cons_succ] using this
      simp only [PGM_PDT_add_scan, hp, hl, if_true, ih rest (i + 1) hempty hrest]
      congr 1
      omega

/-- The scan passes over slots that hold `LOCKED` objects and stops at the
first object behind them that is not `LOCKED`. -/
theorem add_scan_stops_at_unlocked (m : State) (l : List (Option Nat)) (e i p : Nat) (o : object)
    (hslot : l[e]? = some (some p)) (hp : m.heap p = some o) (hunl : o.lock ≠ LOCKED)
    (hbefore : ∀ j, j < e → ∃ p o, l[j]? = some (some p) ∧ m.heap p = some o ∧ o.lock = LOCKED) :
    PGM_PDT_add_scan m l i = some (i + e) := by
  induction e generalizing l i with
  | zero =>
    cases l with
    | nil => simp at hslot
    | cons s rest =>
      simp only [List.getElem?_cons_zero, Option.some.injEq] at hslot
      subst hslot
      simp [PGM_PDT_add_scan, hp, hunl]
  | succ e ih =>
    cases l with
    | nil => simp at hslot
    | cons s rest =>
      obtain ⟨q, b, hs, hq, hl⟩ := hbefore 0 (Nat.succ_pos e)
      simp only [List.getElem?_cons_zero, Option.some.injEq] at hs
      subst hs
      simp only [List.getElem?_cons_succ] at hslot
      have hrest : ∀ j, j < e → ∃ p o, rest[j]? = some (some p) ∧ m.heap p = some o ∧ o.lock = LOCKED := by
        intro j hj
        have := hbefore (j + 1) (Nat.succ_lt_succ hj)
        simpa only [List.getElem?_cons_succ] using this
      simp only [PGM_PDT_add_scan, hq, hl, if_true, ih rest (i + 1) hslot hrest]
      congr 1
      omega

/-- When every slot holds a `LOCKED` object the loop falls through and
`current` keeps its initial value `0`. -/
theorem add_scan_falls_through (m : State) (l : List (Option Nat)) (i : Nat)
    (hall : ∀ j, j < l.length → ∃ p o, l[j]? = some (some p) ∧ m.heap p = some o ∧ o.lock = LOCKED) :
    PGM_PDT_add_scan m l i = some 0 := by
  induction l generalizing i with
  | nil => rfl
  | cons s rest ih =>
    obtain ⟨p, o, hs, hp, hl⟩ := hall 0 (by simp)
    simp only [List.getElem?_cons_zero, Option.some.injEq] at hs
    subst hs
    have hrest : ∀ j, j < rest.length →
        ∃ p o, rest[j]? = some (some p) ∧ m.heap p = some o ∧ o.lock = LOCKED := by
      intro j hj
      have := hall (j + 1) (by simpa using hj)
      simpa only [List.getElem?_cons_succ] using this
    simp only [PGM_PDT_add_scan, hp, hl, if_true, ih (i + 1) hrest]

/-- The index the scan selects is `0` (the loop fell through) or a slot it
visited. -/
theorem add_scan_range (m : State) (l : List (Option Nat)) (i c : Nat)
    (h : PGM_PDT_add_scan m l i = some c) : c = 0 ∨ (i ≤ c ∧ c < i + l.length) := by
  induction l generalizing i with
  | nil =>
    simp only [PGM_PDT_add_scan, Option.some.injEq] at h
    exact Or.inl h.symm
  | cons s rest ih =>
    cases s with
    | none =>
      simp only [PGM_PDT_add_scan, Option.some.injEq] at h
      subst h
      exact Or.inr ⟨Nat.le_refl _, by simp⟩
    | some p =>
      simp only [PGM_PDT_add_scan] at h
      cases hp : m.heap p with
      | none => simp [hp] at h
      | some o =>
        simp only [hp] at h
        by_cases hl : o.lock = LOCKED
        · simp only [hl, if_true] at h
          rcases ih (i + 1) h with h0 | ⟨h1, h2⟩
          · exact Or.inl h0
          · exact Or.inr ⟨by omega, by simp only [List.length_cons]; omega⟩
        · simp only [hl, if_false, Option.some.injEq] at h
          subst h
          exact Or.inr ⟨Nat.le_refl _, by simp⟩

theorem add_scan_lt (m : State) (c : Nat) (hsize : 0 < m.table.length)
    (h : PGM_PDT_add_scan m m.table 0 = some c) : c < m.table.length := by
  rcases add_scan_range m m.table 0 c h with h0 | ⟨_, h2⟩
  · omega
  · omega

/-! ## Admission, case by case -/

/-- On a selected empty slot the incoming object is never stored: line 39
answers -1 when the lock on `NULL` is not refused, and the guarded body is
skipped (answer 1) when it is. -/
theorem add_page_selected_empty (m : State) (page : Option Nat) (tid c : Nat)
    (hscan : PGM_PDT_add_scan m m.table 0 = some c) (hempty : m.table[c]? = some none) :
    PGM_PDT_add_page page tid m = some (if m.lock_null_rc ≠ -1 then -1 else 1, m) := by
  by_cases h : m.lock_null_rc = -1
  · simp [PGM_PDT_add_page, hscan, hempty, PGM_lock_page, h]
  · simp [PGM_PDT_add_page, hscan, hempty, PGM_lock_page, h]

theorem add_page_selected_empty_acquired (m : State) (page : Option Nat) (tid c : Nat)
    (hnull : m.lock_null_rc = 1)
    (hscan : PGM_PDT_add_scan m m.table 0 = some c) (hempty : m.table[c]? = some none) :
    PGM_PDT_add_page page tid m = some (-1, m) := by
  rw [add_page_selected_empty m page tid c hscan hempty, hnull]
  rfl

theorem add_page_selected_refused (m : State) (page : Option Nat) (tid c q : Nat) (b : object)
    (hscan : PGM_PDT_add_scan m m.table 0 = some c) (hc : holds m c q b)
    (hbusy : locked_by_other b tid) :
    PGM_PDT_add_page page tid m = some (1, m) := by
  simp [PGM_PDT_add_page, hscan, hc.1, lock_page_refused m q tid b hc.2 hbusy]

theorem add_page_selected_same (m : State) (pg tid c q : Nat) (o b : object)
    (hscan : PGM_PDT_add_scan m m.table 0 = some c) (hc : holds m c q b)
    (hpg : m.heap pg = some o) (hsame : same_name o b) :
    ∃ m1, PGM_PDT_add_page (some pg) tid m = some (1, m1) ∧ m1.table = m.table ∧
      m1.save_calls = m.save_calls ∧
      ∀ x, (m1.heap x).map object.name = (m.heap x).map object.name := by
  by_cases hbusy : locked_by_other b tid
  · exact ⟨m, add_page_selected_refused m (some pg) tid c q b hscan hc hbusy, rfl, rfl,
      fun _ => rfl⟩
  · refine ⟨{ m with heap := Function.update m.heap q (some (locked_for b tid)) }, ?_, rfl, rfl,
      ?_⟩
    swap
    · intro x
      by_cases hx : x = q
      · subst hx
        simp [hc.2, locked_for]
      · simp [Function.update_noteq hx]
    have hcmp : ∀ x : object, x.name = o.name →
        memcmp x.name (locked_for b tid).name PAGE_NAME_SIZE = 0 := by
      intro x hx
      rw [memcmp_eq_zero_iff, hx]
      exact hsame
    by_cases hpq : pg = q
    · subst hpq
      simp [PGM_PDT_add_page, hscan, hc.1, lock_page_acquired m pg tid b hc.2 hbusy,
        hcmp (locked_for b tid) (by rw [hc.2] at hpg; cases hpg; rfl)]
    · simp [PGM_PDT_add_page, hscan, hc.1, lock_page_acquired m q tid b hc.2 hbusy,
        Function.update_noteq hpq, hpg, hcmp o rfl]

theorem add_page_selected_other (m : State) (pg tid c q : Nat) (o b : object)
    (hscan : PGM_PDT_add_scan m m.table 0 = some c) (hc : holds m c q b)
    (hfree : ¬ locked_by_other b tid)
    (hpg : m.heap pg = some o) (hdiff : ¬ same_name o b) :
    PGM_PDT_add_page (some pg) tid m
      = some (1, { m with
          table := m.table.set c (some pg)
          heap := Function.update m.heap q none
          save_calls := m.save_calls ++ [(q, locked_for b tid)] }) := by
  have hpq : pg ≠ q := by
    rintro rfl
    rw [hc.2] at hpg
    cases hpg
    exact hdiff rfl
  have hcmp : memcmp o.name (locked_for b tid).name PAGE_NAME_SIZE ≠ 0 :=
    (memcmp_name_ne_zero_iff o (locked_for b tid)).2 hdiff
  have hflush := flush_index_occupied
    { m with heap := Function.update m.heap q (some (locked_for b tid)) } c q (locked_for b tid)
    ⟨hc.1, by simp⟩
  simp only [PGM_PDT_add_page, hscan, hc.1, lock_page_acquired m q tid b hc.2 hfree]
  simp [Function.update_noteq hpq, hpg, hcmp, hflush]

/-- On a table without dangling slots the admission scan selects a slot. -/
theorem add_scan_total (m : State) (l : List (Option Nat)) (i : Nat)
    (hlive : ∀ (j p : Nat), l[j]? = some (some p) → ∃ o, m.heap p = some o) :
    ∃ c, PGM_PDT_add_scan m l i = some c := by
  induction l generalizing i with
  | nil => exact ⟨0, rfl⟩
  | cons x rest ih =>
    cases x with
    | none => exact ⟨i, rfl⟩
    | some p =>
      obtain ⟨o, ho⟩ := hlive 0 p (by simp)
      have hrest : ∀ (j p : Nat), rest[j]? = some (some p) → ∃ o, m.heap p = some o :=
        fun j p h => hlive (j + 1) p (by simpa only [List.getElem?_cons_succ] using h)
      by_cases hl : o.lock = LOCKED
      · obtain ⟨c, hc⟩ := ih (i + 1) hrest
        exact ⟨c, by simp only [PGM_PDT_add_scan, ho, hl, if_true, hc]⟩
      · exact ⟨i, by simp only [PGM_PDT_add_scan, ho, hl, if_false]⟩

theorem add_page_selected_same_acquired (m : State) (pg tid c q : Nat) (o b : object)
    (hscan : PGM_PDT_add_scan m m.table 0 = some c) (hc : holds m c q b)
    (hfree : ¬ locked_by_other b tid)
    (hpg : m.heap pg = some o) (hsame : same_name o b) :
    PGM_PDT_add_page (some pg) tid m
      = some (1, { m with heap := Function.update m.heap q (some (locked_for b tid)) }) := by
  have hcmp : ∀ x : object, x.name = o.name →
      memcmp x.name (locked_for b tid).name PAGE_NAME_SIZE = 0 := by
    intro x hx
    rw [memcmp_eq_zero_iff, hx]
    exact hsame
  by_cases hpq : pg = q
  · subst hpq
    simp [PGM_PDT_add_page, hscan, hc.1, lock_page_acquired m pg tid b hc.2 hfree,
      hcmp (locked_for b tid) (by rw [hc.2] at hpg; cases hpg; rfl)]
  · simp [PGM_PDT_add_page, hscan, hc.1, lock_page_acquired m q tid b hc.2 hfree,
      Function.update_noteq hpq, hpg, hcmp o rfl]

/-- `add` leaves alone a slot whose object is `LOCKED` by another thread: the
call returns, the slot keeps its pointer and the object is untouched. -/
theorem add_page_keeps_locked_slot (m : State) (pg tid i p : Nat) (o a : object)
    (hlive : no_dangling m) (hpg : m.heap pg = some a)
    (hi : holds m i p o) (hlock : locked_by_other o tid) :
    ∃ r m1, PGM_PDT_add_page (some pg) tid m = some (r, m1) ∧ holds m1 i p o := by
  obtain ⟨c, hscan⟩ := add_scan_total m m.table 0 hlive
  have hc := add_scan_lt m c (Nat.lt_of_le_of_lt (Nat.zero_le i) (holds_lt hi)) hscan
  have hget : m.table[c]? = some m.table[c] := List.getElem?_eq_getElem hc
  cases hslot : m.table[c] with
  | none =>
    rw [hslot] at hget
    exact ⟨_, m, add_page_selected_empty m (some pg) tid c hscan hget, hi⟩
  | some q =>
    rw [hslot] at hget
    obtain ⟨b, hb⟩ := hlive c q hget
    have hcq : holds m c q b := ⟨hget, hb⟩
    by_cases hbusy : locked_by_other b tid
    · exact ⟨1, m, add_page_selected_refused m (some pg) tid c q b hscan hcq hbusy, hi⟩
    · have hqp : p ≠ q := by
        rintro rfl
        rw [hi.2] at hb
        cases hb
        exact hbusy hlock
      have hci : i ≠ c := by
        rintro rfl
        rw [hi.1] at hget
        cases hget
        exact hqp rfl
      by_cases hsame : same_name a b
      · refine ⟨1, _, add_page_selected_same_acquired m pg tid c q a b hscan hcq hbusy hpg hsame,
          hi.1, ?_⟩
        simp only [Function.update_noteq hqp]
        exact hi.2
      · refine ⟨1, _, add_page_selected_other m pg tid c q a b hscan hcq hbusy hpg hsame, ?_, ?_⟩
        · simp only [List.getElem?_set, Ne.symm hci, if_false]
          exact hi.1
        · simp only [Function.update_noteq hqp]
          exact hi.2

/-! ## Lookup and sync -/

/-- The lookup loop misses when every occupied slot is live and none of the
names compares equal to the string looked for. -/
theorem find_loop_miss (m : State) (s : List Nat) (l : List (Option Nat))
    (h : ∀ (j p : Nat), l[j]? = some (some p) →
      ∃ o, m.heap p = some o ∧ strncmp o.name s PAGE_NAME_SIZE ≠ 0) :
    PGM_PDT_find_loop m (some s) l = some none := by
  induction l with
  | nil => rfl
  | cons x rest ih =>
    have hrest : ∀ (j p : Nat), rest[j]? = some (some p) →
        ∃ o, m.heap p = some o ∧ strncmp o.name s PAGE_NAME_SIZE ≠ 0 := by
      intro j p hj
      exact h (j + 1) p (by simpa only [List.getElem?_cons_succ] using hj)
    cases x with
    | none => simp only [PGM_PDT_find_loop, ih hrest]
    | some p =>
      obtain ⟨o, ho, hne⟩ := h 0 p (by simp)
      simp only [PGM_PDT_find_loop, ho, if_neg hne, ih hrest]

/-- The loop of `sync` runs into the cleared slot: if the first occupied slot
at or after index `j` holds an object whose lock the caller can acquire, the
iteration for that slot flushes it and then reads the name through the slot,
which is `NULL` by then. -/
theorem sync_loop_reads_cleared_slot (tid k j i p : Nat) (m : State) (o : object)
    (hji : j ≤ i) (hik : i < j + k)
    (hbefore : ∀ x, j ≤ x → x < i → m.table[x]? = some none)
    (hi : holds m i p o) (hfree : ¬ locked_by_other o tid) :
    PGM_PDT_sync_loop tid k j m = none := by
  induction k generalizing j with
  | zero => omega
  | succ k ih =>
    by_cases hj : j = i
    · subst hj
      have hlen : j < m.table.length := by
        by_contra hge
        have h1 := hi.1
        rw [List.getElem?_eq_none (Nat.le_of_not_lt hge)] at h1
        cases h1
      have hflush := flush_index_occupied
        { m with heap := Function.update m.heap p (some (locked_for o tid)) } j p
        (locked_for o tid) ⟨hi.1, by simp⟩
      simp only [PGM_PDT_sync_loop, hi.1, lock_page_acquired m p tid o hi.2 hfree]
      simp [hflush, List.getElem?_set, hlen]
    · have hlt : j < i := Nat.lt_of_le_of_ne hji hj
      have hslot := hbefore j (Nat.le_refl j) hlt
      simp only [PGM_PDT_sync_loop, hslot]
      exact ih (j + 1) hlt (by omega) (fun x hx hxi => hbefore x (by omega) hxi)

/-- The lookup loop returns the first occupied slot whose name compares equal
to the string and misses exactly when there is none. -/
theorem find_loop_first_match (m : State) (s : List Nat) (l : List (Option Nat))
    (hlive : ∀ (j p : Nat), l[j]? = some (some p) → ∃ o, m.heap p = some o) :
    (∃ i p o, l[i]? = some (some p) ∧ m.heap p = some o ∧
      strncmp o.name s PAGE_NAME_SIZE = 0 ∧
      (∀ (j q : Nat) (b : object), j < i → l[j]? = some (some q) → m.heap q = some b →
        strncmp b.name s PAGE_NAME_SIZE ≠ 0) ∧
      PGM_PDT_find_loop m (some s) l = some (some p)) ∨
    ((∀ (j q : Nat) (b : object), l[j]? = some (some q) → m.heap q = some b →
        strncmp b.name s PAGE_NAME_SIZE ≠ 0) ∧
      PGM_PDT_find_loop m (some s) l = some none) := by
  induction l with
  | nil =>
    right
    exact ⟨fun j q b h => by simp at h, rfl⟩
  | cons x rest ih =>
    have hrest : ∀ (j p : Nat), rest[j]? = some (some p) → ∃ o, m.heap p = some o :=
      fun j p h => hlive (j + 1) p (by simpa only [List.getElem?_cons_succ] using h)
    -- the slots of `x :: rest` in front of `i + 1` that do not match
    have shift : ∀ i : Nat, (∀ (q : Nat) (b : object), x = some q → m.heap q = some b →
          strncmp b.name s PAGE_NAME_SIZE ≠ 0) →
        (∀ (j q : Nat) (b : object), j < i → rest[j]? = some (some q) → m.heap q = some b →
          strncmp b.name s PAGE_NAME_SIZE ≠ 0) →
        ∀ (j q : Nat) (b : object), j < i + 1 → (x :: rest)[j]? = some (some q) →
          m.heap q = some b → strncmp b.name s PAGE_NAME_SIZE ≠ 0 := by
      intro i hx hr j q b hj hq hb
      cases j with
      | zero =>
        simp only [List.getElem?_cons_zero, Option.some.injEq] at hq
        exact hx q b hq hb
      | succ j =>
        simp only [List.getElem?_cons_succ] at hq
        exact hr j q b (by omega) hq hb
    have shift_all : (∀ (q : Nat) (b : object), x = some q → m.heap q = some b →
          strncmp b.name s PAGE_NAME_SIZE ≠ 0) →
        (∀ (j q : Nat) (b : object), rest[j]? = some (some q) → m.heap q = some b →
          strncmp b.name s PAGE_NAME_SIZE ≠ 0) →
        ∀ (j q : Nat) (b : object), (x :: rest)[j]? = some (some q) →
          m.heap q = some b → strncmp b.name s PAGE_NAME_SIZE ≠ 0 := by
      intro hx hr j q b hq hb
      cases j with
      | zero =>
        simp only [List.getElem?_cons_zero, Option.some.injEq] at hq
        exact hx q b hq hb
      | succ j =>
        simp only [List.getElem?_cons_succ] at hq
        exact hr j q b hq hb
    cases x with
    | none =>
      have hx : ∀ (q : Nat) (b : object), (none : Option Nat) = some q → m.heap q = some b →
          strncmp b.name s PAGE_NAME_SIZE ≠ 0 := fun q b h => by cases h
      rcases ih hrest with ⟨i, p, o, hi, hp, hm, hfirst, hres⟩ | ⟨hnone, hres⟩
      · left
        exact ⟨i + 1, p, o, by simpa only [List.getElem?_cons_succ] using hi, hp, hm,
          shift i hx hfirst, by simp only [PGM_PDT_find_loop, hres]⟩
      · right
        exact ⟨shift_all hx hnone, by simp only [PGM_PDT_find_loop, hres]⟩
    | some p =>
      obtain ⟨o, ho⟩ := hlive 0 p (by simp)
      by_cases hm : strncmp o.name s PAGE_NAME_SIZE = 0
      · left
        exact ⟨0, p, o, by simp, ho, hm, fun j q b hj => absurd hj (Nat.not_lt_zero j),
          by simp only [PGM_PDT_find_loop, ho, hm, if_true]⟩
      · have hx : ∀ (q : Nat) (b : object), some p = some q → m.heap q = some b →
            strncmp b.name s PAGE_NAME_SIZE ≠ 0 := by
          intro q b hq hb
          cases hq
          rw [ho] at hb
          cases hb
          exact hm
        rcases ih hrest with ⟨i, p2, o2, hi, hp, hm2, hfirst, hres⟩ | ⟨hnone, hres⟩
        · left
          exact ⟨i + 1, p2, o2, by simpa only [List.getElem?_cons_succ] using hi, hp, hm2,
            shift i hx hfirst, by simp only [PGM_PDT_find_loop, ho, if_neg hm, hres]⟩
        · right
          exact ⟨shift_all hx hnone, by simp only [PGM_PDT_find_loop, ho, if_neg hm, hres]⟩

/-- The search of `flush_object` returns the lowest index whose slot holds the
pointer, and `-1` (`none`) exactly when no slot holds it. -/
theorem flush_search_first (pg : Nat) (l : List (Option Nat)) (k : Nat) :
    (∃ i, l[i]? = some (some pg) ∧ (∀ j, j < i → l[j]? ≠ some (some pg)) ∧
      PGM_PDT_flush_search pg l k = some (k + i)) ∨
    ((∀ j : Nat, l[j]? ≠ some (some pg)) ∧ PGM_PDT_flush_search pg l k = none) := by
  induction l generalizing k with
  | nil =>
    right
    exact ⟨fun j => by simp, rfl⟩
  | cons x rest ih =>
    by_cases hx : x = some pg
    · subst hx
      left
      exact ⟨0, by simp, fun j hj => absurd hj (Nat.not_lt_zero j),
        by simp [PGM_PDT_flush_search]⟩
    · have hstep : PGM_PDT_flush_search pg (x :: rest) k
          = PGM_PDT_flush_search pg rest (k + 1) := by
        cases x with
        | none => simp only [PGM_PDT_flush_search]
        | some p =>
          have hp : ¬ pg = p := fun h => hx (by rw [h])
          simp only [PGM_PDT_flush_search, if_neg hp]
      have hhead : (x :: rest)[0]? ≠ some (some pg) := by
        simp only [List.getElem?_cons_zero, ne_eq, Option.some.injEq]
        exact hx
      rcases ih (k + 1) with ⟨i, hi, hfirst, hres⟩ | ⟨hnone, hres⟩
      · left
        refine ⟨i + 1, by simpa only [List.getElem?_cons_succ] using hi, ?_, ?_⟩
        · intro j hj
          cases j with
          | zero => exact hhead
          | succ j =>
            simp only [List.getElem?_cons_succ]
            exact hfirst j (by omega)
        · rw [hstep, hres]
          congr 1
          omega
      · right
        refine ⟨?_, by rw [hstep, hres]⟩
        intro j
        cases j with
        | zero => exact hhead
        | succ j =>
          simp only [List.getElem?_cons_succ]
          exact hnone j

theorem getElem?_lt_of_eq_some {α : Type} {l : List α} {i : Nat} {a : α} (h : l[i]? = some a) :
    i < l.length := by
  by_contra hge
  rw [List.getElem?_eq_none (Nat.le_of_not_lt hge)] at h
  cases h

/-- The loop of `sync` skips empty slots and answers -1, with the memory as it
was, at the first occupied slot when that one is `LOCKED` by another thread. -/
theorem sync_loop_busy (tid k j i q : Nat) (m : State) (b : object)
    (hji : j ≤ i) (hik : i < j + k)
    (hbefore : ∀ x, j ≤ x → x < i → m.table[x]? = some none)
    (hi : holds m i q b) (hbusy : locked_by_other b tid) :
    PGM_PDT_sync_loop tid k j m = some (-1, m) := by
  induction k generalizing j with
  | zero => omega
  | succ k ih =>
    by_cases hj : j = i
    · subst hj
      simp [PGM_PDT_sync_loop, hi.1, lock_page_refused m q tid b hi.2 hbusy]
    · have hlt : j < i := Nat.lt_of_le_of_ne hji hj
      have hslot := hbefore j (Nat.le_refl j) hlt
      simp only [PGM_PDT_sync_loop, hslot]
      exact ih (j + 1) hlt (by omega) (fun x hx hxi => hbefore x (by omega) hxi)

/-- Among the slots in front of `k`, if one is not empty there is a first
one. -/
theorem first_occupied_before (l : List (Option Nat)) (k : Nat)
    (h : ∃ j, j < k ∧ l[j]? ≠ some none) :
    ∃ i, i < k ∧ l[i]? ≠ some none ∧ ∀ x, x < i → l[x]? = some none := by
  classical
  refine ⟨Nat.find h, (Nat.find_spec h).1, (Nat.find_spec h).2, ?_⟩
  intro x hx
  by_contra hne
  exact Nat.find_min h hx ⟨Nat.lt_trans hx (Nat.find_spec h).1, hne⟩

/-! ## The empty table -/

theorem all_empty_getElem? {m : State} (h : all_empty m) {i : Nat} (hi : i < m.table.length) :
    m.table[i]? = some none := by
  rw [List.getElem?_eq_getElem hi]
  exact congrArg some (h _ (List.getElem_mem _))

theorem add_page_all_empty (m : State) (page : Option Nat) (tid : Nat) (h : all_empty m) :
    (0 < m.table.length →
      PGM_PDT_add_page page tid m = some (if m.lock_null_rc ≠ -1 then -1 else 1, m)) ∧
    (∀ r m1, PGM_PDT_add_page page tid m = some (r, m1) → m1 = m) := by
  cases ht : m.table with
  | nil =>
    refine ⟨fun h0 => by simp at h0, ?_⟩
    intro r m1 hadd
    simp [PGM_PDT_add_page, ht, PGM_PDT_add_scan] at hadd
  | cons x rest =>
    have hx : x = none := h x (by rw [ht]; exact List.mem_cons_self x rest)
    subst hx
    have hscan : PGM_PDT_add_scan m m.table 0 = some 0 := by rw [ht]; rfl
    have hslot : m.table[0]? = some none := by rw [ht]; simp
    have hadd := add_page_selected_empty m page tid 0 hscan hslot
    refine ⟨fun _ => hadd, ?_⟩
    intro r m1 h1
    rw [hadd] at h1
    cases h1
    rfl

theorem flush_page_all_empty (m : State) (page : Option Nat) (h : all_empty m) :
    (page = none → PGM_PDT_flush_page page m = some (-1, m)) ∧
    (∀ r m1, PGM_PDT_flush_page page m = some (r, m1) → m1.table = m.table ∧
      m1.lock_null_rc = m.lock_null_rc) := by
  refine ⟨fun hp => by subst hp; rfl, ?_⟩
  intro r m1 hfl
  cases page with
  | none =>
    simp only [PGM_PDT_flush_page, Option.some.injEq, Prod.mk.injEq] at hfl
    rw [← hfl.2]
    exact ⟨rfl, rfl⟩
  | some pg =>
    rcases flush_search_first pg m.table 0 with ⟨i, hi, _, _⟩ | ⟨_, hres⟩
    · have := h (some pg) (List.getElem?_mem hi)
      cases this
    · simp only [PGM_PDT_flush_page, hres, PGM_free_page] at hfl
      cases hp : m.heap pg with
      | none => simp [hp] at hfl
      | some o =>
        simp only [hp, Option.some.injEq, Prod.mk.injEq] at hfl
        rw [← hfl.2]
        exact ⟨rfl, rfl⟩

theorem sync_loop_all_empty (tid k i : Nat) (m : State) (h : all_empty m)
    (hk : i + k = m.table.length) : PGM_PDT_sync_loop tid k i m = some (1, m) := by
  induction k generalizing i with
  | zero => rfl
  | succ k ih =>
    simp only [PGM_PDT_sync_loop, all_empty_getElem? h (show i < m.table.length by omega)]
    exact ih (i + 1) (by omega)

theorem clear_loop_all_empty (tid k i : Nat) (m : State) (h : all_empty m)
    (hk : i + k = m.table.length) :
    ∃ r, PGM_PDT_clear_loop tid k i m = some (r, m) := by
  induction k generalizing i with
  | zero => exact ⟨1, rfl⟩
  | succ k ih =>
    have hslot := all_empty_getElem? h (show i < m.table.length by omega)
    by_cases hrc : m.lock_null_rc = 1
    · obtain ⟨r, hr⟩ := ih (i + 1) (by omega)
      exact ⟨r, by
        simp only [PGM_PDT_clear_loop, hslot, PGM_lock_page, hrc, if_true,
          flush_index_empty m i hslot, hr]⟩
    · exact ⟨-1, by simp only [PGM_PDT_clear_loop, hslot, PGM_lock_page, hrc, if_false]⟩

/-- One call on an empty table leaves the table as it is; the calls that are
defined on an empty table return and leave the whole memory as it is. -/
theorem step_all_empty (T : descriptor_table) (hT : T = PDT ∨ T = DDT) (c : call) (m : State)
    (h : all_empty m) :
    (∀ r m1, step T c m = some (r, m1) → m1.table = m.table) ∧
    (defined_on_empty m.table.length c → ∃ r, step T c m = some (r, m)) := by
  obtain ⟨_, hadd, hsync, hclear, hflush, hfi⟩ := table_ops_eq T hT
  cases c with
  | add page tid =>
    simp only [step, hadd, defined_on_empty]
    obtain ⟨h1, h2⟩ := add_page_all_empty m page tid h
    exact ⟨fun r m1 hr => by rw [h2 r m1 hr], fun h0 => ⟨_, h1 h0⟩⟩
  | flush_index index =>
    simp only [step, hfi, defined_on_empty]
    constructor
    · intro r m1 hr
      cases hs : m.table[index]? with
      | none => simp [PGM_PDT_flush_index, hs] at hr
      | some s =>
        have hnone : s = none := h s (List.getElem?_mem hs)
        subst hnone
        rw [flush_index_empty m index hs] at hr
        cases hr
        rfl
    · intro hi
      exact ⟨-1, flush_index_empty m index (all_empty_getElem? h hi)⟩
  | flush page =>
    simp only [step, hflush, defined_on_empty]
    obtain ⟨h1, h2⟩ := flush_page_all_empty m page h
    exact ⟨fun r m1 hr => (h2 r m1 hr).1, fun hp => ⟨-1, h1 hp⟩⟩
  | sync tid =>
    simp only [step, hsync, defined_on_empty]
    have hs : PGM_PDT_sync tid m = some (1, m) :=
      sync_loop_all_empty tid m.table.length 0 m h (by omega)
    exact ⟨fun r m1 hr => by rw [hs] at hr; cases hr; rfl, fun _ => ⟨1, hs⟩⟩
  | clear tid =>
    simp only [step, hclear, defined_on_empty]
    obtain ⟨r0, hc⟩ : ∃ r, PGM_PDT_clear tid m = some (r, m) :=
      clear_loop_all_empty tid m.table.length 0 m h (by omega)
    exact ⟨fun r m1 hr => by rw [hc] at hr; cases hr; rfl, fun _ => ⟨r0, hc⟩⟩

theorem find_all_empty (T : descriptor_table) (hT : T = PDT ∨ T = DDT) (m : State)
    (h : all_empty m) (name : Option (List Nat)) : T.find name m = some none := by
  cases name with
  | none =>
    rcases hT with rfl | rfl
    · exact find_loop_all_empty m none m.table h
    · rfl
  | some s =>
    rw [table_find_eq T hT]
    exact find_loop_all_empty m (some s) m.table h

theorem run_all_empty (T : descriptor_table) (hT : T = PDT ∨ T = DDT) (calls : List call)
    (m m1 : State) (h : all_empty m) (hrun : run T calls m = some m1) :
    m1.table = m.table := by
  induction calls generalizing m with
  | nil =>
    simp only [run, Option.some.injEq] at hrun
    rw [hrun]
  | cons c cs ih =>
    simp only [run] at hrun
    cases hstep : step T c m with
    | none => simp [hstep] at hrun
    | some out =>
      obtain ⟨r, m2⟩ := out
      simp only [hstep] at hrun
      have htab := (step_all_empty T hT c m h).1 r m2 hstep
      have h2 : all_empty m2 := by
        unfold all_empty
        rw [htab]
        exact h
      rw [ih m2 h2 hrun, htab]

theorem run_defined_on_empty (T : descriptor_table) (hT : T = PDT ∨ T = DDT)
    (calls : List call) (m : State) (h : all_empty m)
    (hdef : ∀ c ∈ calls, defined_on_empty m.table.length c) :
    run T calls m = some m := by
  induction calls with
  | nil => rfl
  | cons c cs ih =>
    obtain ⟨r, hr⟩ := (step_all_empty T hT c m h).2 (hdef c (List.mem_cons_self c cs))
    simp only [run, hr]
    exact ih (fun c2 hc2 => hdef c2 (List.mem_cons_of_mem c hc2))

/-! ## Clearing the table -/

theorem slice_cons {α : Type} (l : List α) (i stop : Nat) (s : α) (hi : i < stop)
    (hs : l[i]? = some s) : (l.take stop).drop i = s :: (l.take stop).drop (i + 1) := by
  apply List.ext_getElem?
  intro n
  cases n with
  | zero =>
    simp only [List.getElem?_drop, Nat.add_zero, List.getElem?_cons_zero,
      List.getElem?_take_of_lt hi, hs]
  | succ n =>
    simp only [List.getElem?_drop, List.getElem?_cons_succ]
    congr 1
    omega

theorem slice_set {α : Type} (l : List α) (i stop : Nat) (a : α) :
    ((l.set i a).take stop).drop (i + 1) = (l.take stop).drop (i + 1) := by
  apply List.ext_getElem?
  intro n
  simp only [List.getElem?_drop, List.getElem?_take, List.getElem?_set]
  have hne : ¬ i = i + 1 + n := by omega
  simp only [hne, if_false]

theorem mem_slice {α : Type} (l : List α) (i stop : Nat) (s : α)
    (h : s ∈ (l.take stop).drop i) : ∃ j, i ≤ j ∧ j < stop ∧ l[j]? = some s := by
  obtain ⟨n, hn⟩ := List.getElem?_of_mem h
  rw [List.getElem?_drop, List.getElem?_take] at hn
  by_cases hlt : i + n < stop
  · simp only [hlt, if_true] at hn
    exact ⟨i + n, Nat.le_add_right i n, hlt, hn⟩
  · simp only [hlt, if_false] at hn
    cases hn

theorem flushed_congr (m m2 : State) (tid : Nat) (slots : List (Option Nat))
    (h : ∀ p, some p ∈ slots → m2.heap p = m.heap p) :
    flushed m2 tid slots = flushed m tid slots := by
  unfold flushed
  apply List.filterMap_congr
  intro s hs
  cases s with
  | none => rfl
  | some p => simp only [h p hs]

/-- One iteration of the loop of `clear` on an empty slot, the lock on `NULL`
being granted: nothing changes. -/
theorem clear_loop_step_empty (tid k i : Nat) (m : State) (hnull : m.lock_null_rc = 1)
    (hslot : m.table[i]? = some none) :
    PGM_PDT_clear_loop tid (k + 1) i m = PGM_PDT_clear_loop tid k (i + 1) m := by
  simp only [PGM_PDT_clear_loop, hslot, PGM_lock_page, hnull, if_true,
    flush_index_empty m i hslot]

/-- One iteration of the loop of `clear` on a slot whose lock the caller gets:
the object is saved as locked by the caller and freed, the slot is emptied. -/
theorem clear_loop_step_occupied (tid k i p : Nat) (m : State) (o : object)
    (hi : holds m i p o) (hfree : ¬ locked_by_other o tid) :
    PGM_PDT_clear_loop tid (k + 1) i m
      = PGM_PDT_clear_loop tid k (i + 1) { m with
          table := m.table.set i none
          heap := Function.update m.heap p none
          save_calls := m.save_calls ++ [(p, locked_for o tid)] } := by
  have hflush := flush_index_occupied
    { m with heap := Function.update m.heap p (some (locked_for o tid)) } i p (locked_for o tid)
    ⟨hi.1, by simp⟩
  simp only [PGM_PDT_clear_loop, hi.1, lock_page_acquired m p tid o hi.2 hfree]
  simp [hflush]

/-- One iteration of the loop of `clear` on a slot `LOCKED` by another thread:
the loop stops with -1. -/
theorem clear_loop_step_busy (tid k i q : Nat) (m : State) (b : object)
    (hi : holds m i q b) (hbusy : locked_by_other b tid) :
    PGM_PDT_clear_loop tid (k + 1) i m = some (-1, m) := by
  simp [PGM_PDT_clear_loop, hi.1, lock_page_refused m q tid b hi.2 hbusy]

/-- The loop of `clear` from index `i` up to `stop`, which is the end of the
table or the first slot `LOCKED` by another thread: the slots in between are
flushed one by one. -/
theorem clear_loop_run (tid stop : Nat) (k i : Nat) (m : State)
    (hnull : m.lock_null_rc = 1) (hik : i + k = m.table.length)
    (his : i ≤ stop) (hsl : stop ≤ m.table.length) (halias : no_alias m)
    (hfree : ∀ (j p : Nat), i ≤ j → j < stop → m.table[j]? = some (some p) →
      ∃ o, m.heap p = some o ∧ ¬ locked_by_other o tid)
    (hstop : stop = m.table.length ∨ ∃ q b, holds m stop q b ∧ locked_by_other b tid) :
    ∃ m1, PGM_PDT_clear_loop tid k i m
        = some (if stop = m.table.length then 1 else -1, m1) ∧
      m1.table.length = m.table.length ∧
      (∀ j, j < i → m1.table[j]? = m.table[j]?) ∧
      (∀ j, i ≤ j → j < stop → m1.table[j]? = some none) ∧
      (∀ j, stop ≤ j → m1.table[j]? = m.table[j]?) ∧
      m1.save_calls = m.save_calls ++ flushed m tid ((m.table.take stop).drop i) ∧
      (∀ (j x : Nat), i ≤ j → j < stop → m.table[j]? = some (some x) → m1.heap x = none) ∧
      (∀ x : Nat, (∀ j, i ≤ j → j < stop → m.table[j]? ≠ some (some x)) →
        m1.heap x = m.heap x) := by
  induction k generalizing i m with
  | zero =>
    have hstop_eq : stop = m.table.length := by omega
    have hslice : (m.table.take stop).drop i = [] := by
      apply List.drop_eq_nil_of_le
      simp only [List.length_take]
      omega
    refine ⟨m, by simp only [PGM_PDT_clear_loop, hstop_eq, if_true], rfl, fun _ _ => rfl,
      fun j h1 h2 => by omega, fun _ _ => rfl, ?_, fun j x h1 h2 => by omega, fun _ _ => rfl⟩
    rw [hslice]
    simp [flushed]
  | succ k ih =>
    have hilen : i < m.table.length := by omega
    by_cases hist : i = stop
    · -- the loop has reached the slot held by another thread
      subst hist
      rcases hstop with hend | ⟨q, b, hq, hbusy⟩
      · omega
      · have hslice : (m.table.take i).drop i = [] := by
          apply List.drop_eq_nil_of_le
          simp only [List.length_take]
          omega
        have hne : ¬ i = m.table.length := by omega
        refine ⟨m, by rw [clear_loop_step_busy tid k i q m b hq hbusy]; simp only [hne, if_false],
          rfl, fun _ _ => rfl, fun j h1 h2 => by omega, fun _ _ => rfl, ?_,
          fun j x h1 h2 => by omega, fun _ _ => rfl⟩
        rw [hslice]
        simp [flushed]
    · have hlt : i < stop := Nat.lt_of_le_of_ne his hist
      have hget : m.table[i]? = some m.table[i] := List.getElem?_eq_getElem hilen
      cases hslot : m.table[i] with
      | none =>
        rw [hslot] at hget
        obtain ⟨m1, hrun, hlen1, hlow, hmid, hhigh, hsave, hgone, hkept⟩ :=
          ih (i + 1) m hnull (by omega) (by omega) hsl halias
            (fun j p h1 h2 => hfree j p (by omega) h2) hstop
        refine ⟨m1, by rw [clear_loop_step_empty tid k i m hnull hget]; exact hrun, hlen1,
          fun j hj => hlow j (by omega), ?_, hhigh, ?_, ?_, ?_⟩
        · intro j h1 h2
          by_cases hji : j = i
          · subst hji
            rw [hlow j (by omega)]
            exact hget
          · exact hmid j (by omega) h2
        · rw [hsave, slice_cons m.table i stop none hlt hget]
          simp [flushed]
        · intro j x h1 h2 hx
          by_cases hji : j = i
          · subst hji
            rw [hget] at hx
            cases hx
          · exact hgone j x (by omega) h2 hx
        · intro x hx
          exact hkept x (fun j h1 h2 => hx j (by omega) h2)
      | some p =>
        rw [hslot] at hget
        obtain ⟨o, ho, hofree⟩ := hfree i p (Nat.le_refl i) hlt hget
        -- the memory after the iteration for slot `i`
        have htab2 : ∀ j, j ≠ i → (m.table.set i none)[j]? = m.table[j]? := by
          intro j hj
          simp only [List.getElem?_set, Ne.symm hj, if_false]
        have hother : ∀ (j x : Nat), j ≠ i → m.table[j]? = some (some x) → x ≠ p := by
          rintro j x hj hx rfl
          exact hj (halias j i x hx hget)
        obtain ⟨m1, hrun, hlen1, hlow, hmid, hhigh, hsave, hgone, hkept⟩ :=
          ih (i + 1) { m with
              table := m.table.set i none
              heap := Function.update m.heap p none
              save_calls := m.save_calls ++ [(p, locked_for o tid)] }
            hnull (by simp only [List.length_set]; omega) (by omega)
            (by simp only [List.length_set]; exact hsl)
            (by
              intro j1 j2 x h1 h2
              have hj1 : j1 ≠ i := by
                rintro rfl
                simp [List.getElem?_set, hilen] at h1
              have hj2 : j2 ≠ i := by
                rintro rfl
                simp [List.getElem?_set, hilen] at h2
              rw [htab2 j1 hj1] at h1
              rw [htab2 j2 hj2] at h2
              exact halias j1 j2 x h1 h2)
            (by
              intro j x h1 h2 hx
              have hji : j ≠ i := by omega
              rw [htab2 j hji] at hx
              obtain ⟨b, hb, hbfree⟩ := hfree j x (by omega) h2 hx
              exact ⟨b, by simp only [Function.update_noteq (hother j x hji hx)]; exact hb,
                hbfree⟩)
            (by
              rcases hstop with hend | ⟨q, b, hq, hbusy⟩
              · left
                simp only [List.length_set]
                exact hend
              · right
                have hsi : stop ≠ i := by omega
                refine ⟨q, b, ⟨by rw [htab2 stop hsi]; exact hq.1, ?_⟩, hbusy⟩
                simp only [Function.update_noteq (hother stop q hsi hq.1)]
                exact hq.2)
        simp only [List.length_set] at hrun hlen1
        refine ⟨m1, by rw [clear_loop_step_occupied tid k i p m o ⟨hget, ho⟩ hofree]; exact hrun,
          hlen1, ?_, ?_, ?_, ?_, ?_, ?_⟩
        · intro j hj
          rw [hlow j (by omega)]
          exact htab2 j (by omega)
        · intro j h1 h2
          by_cases hji : j = i
          · subst hji
            rw [hlow j (by omega)]
            simp [List.getElem?_set, hilen]
          · exact hmid j (by omega) h2
        · intro j hj
          rw [hhigh j hj]
          exact htab2 j (by omega)
        · rw [hsave, slice_set, slice_cons m.table i stop (some p) hlt hget]
          have hcongr : flushed { m with
                table := m.table.set i none
                heap := Function.update m.heap p none
                save_calls := m.save_calls ++ [(p, locked_for o tid)] } tid
                ((m.table.take stop).drop (i + 1))
              = flushed m tid ((m.table.take stop).drop (i + 1)) := by
            apply flushed_congr
            intro x hx
            obtain ⟨j, h1, _, hj⟩ := mem_slice m.table (i + 1) stop (some x) hx
            simp only [Function.update_noteq (hother j x (by omega) hj)]
          rw [hcongr]
          simp [flushed, ho]
        · intro j x h1 h2 hx
          by_cases hji : j = i
          · subst hji
            have hxp : x = p := by
              rw [hget] at hx
              exact (Option.some.inj (Option.some.inj hx)).symm
            rw [hxp, hkept p]
            · simp
            · intro j2 h3 h4 hj2
              have hj2i : j2 ≠ j := by omega
              rw [htab2 j2 hj2i] at hj2
              exact hother j2 p hj2i hj2 rfl
          · apply hgone j x (by omega) h2
            rw [htab2 j hji]
            exact hx
        · intro x hx
          have hxp : x ≠ p := by
            rintro rfl
            exact hx i (Nat.le_refl i) hlt hget
          rw [hkept x]
          · simp only [Function.update_noteq hxp]
          · intro j h1 h2 hj
            rw [htab2 j (by omega)] at hj
            exact hx j (by omega) h2 hj

/-! ## Name uniqueness -/

/-- Uniqueness of names only depends on the table and on the names of the
live objects. -/
theorem name_unique_of_same_names (m m1 : State) (htab : m1.table = m.table)
    (hnames : ∀ x, (m1.heap x).map object.name = (m.heap x).map object.name)
    (hu : name_unique m) : name_unique m1 := by
  have back : ∀ (i p : Nat) (a : object), holds m1 i p a →
      ∃ a0, holds m i p a0 ∧ a0.name = a.name := by
    intro i p a h
    have hn := hnames p
    rw [h.2] at hn
    cases hm : m.heap p with
    | none => simp [hm] at hn
    | some a0 =>
      simp only [hm, Option.map_some', Option.some.injEq] at hn
      exact ⟨a0, ⟨by rw [← htab]; exact h.1, hm⟩, hn.symm⟩
  intro i j p q a b hij hi hj hsame
  obtain ⟨a0, ha0, hna⟩ := back i p a hi
  obtain ⟨b0, hb0, hnb⟩ := back j q b hj
  apply hu i j p q a0 b0 hij ha0 hb0
  simp only [same_name, hna, hnb]
  exact hsame

/-! ## Checking example memories -/

/-- A table whose occupied slots all point into the heap has no dangling
slot; the premise is a computation on an example memory. -/
theorem no_dangling_of_all (m : State)
    (h : m.table.all (fun s => match s with
      | none => true
      | some p => (m.heap p).isSome) = true) : no_dangling m := by
  intro i p hp
  rw [List.all_eq_true] at h
  have hmem : some p ∈ m.table := List.getElem?_mem hp
  have := h (some p) hmem
  exact Option.isSome_iff_exists.mp this

theorem mem_full_AB_no_dangling : no_dangling mem_full_AB :=
  no_dangling_of_all mem_full_AB rfl

theorem mem_full_AB_slots (j q : Nat) (b : object) (h : holds mem_full_AB j q b) :
    (j = 0 ∧ b = ⟨name_A, UNLOCKED, none⟩) ∨ (j = 1 ∧ b = ⟨name_B, UNLOCKED, none⟩) := by
  have hlt : j < 2 := holds_lt h
  obtain ⟨h1, h2⟩ := h
  interval_cases j
  · cases h1
    cases h2
    exact Or.inl ⟨rfl, rfl⟩
  · cases h1
    cases h2
    exact Or.inr ⟨rfl, rfl⟩

theorem mem_full_AB_fresh_slots (j q : Nat) (b : object) (h : holds mem_full_AB_fresh j q b) :
    (j = 0 ∧ b = ⟨name_A, UNLOCKED, none⟩) ∨ (j = 1 ∧ b = ⟨name_B, UNLOCKED, none⟩) := by
  have hlt : j < 2 := holds_lt h
  obtain ⟨h1, h2⟩ := h
  interval_cases j
  · cases h1
    cases h2
    exact Or.inl ⟨rfl, rfl⟩
  · cases h1
    cases h2
    exact Or.inr ⟨rfl, rfl⟩

theorem mem_unlocked_then_locked_no_alias : no_alias mem_unlocked_then_locked := by
  intro i j p h1 h2
  have hi : i < 2 := getElem?_lt_of_eq_some h1
  have hj : j < 2 := getElem?_lt_of_eq_some h2
  have e0 : mem_unlocked_then_locked.table[0]? = some (some 1) := rfl
  have e1 : mem_unlocked_then_locked.table[1]? = some (some 2) := rfl
  interval_cases i <;> interval_cases j
  · rfl
  · rw [e0] at h1
    rw [e1] at h2
    cases h1
    cases h2
  · rw [e1] at h1
    rw [e0] at h2
    cases h1
    cases h2
  · rfl

theorem mem_unlocked_then_locked_slots (j q : Nat) (b : object)
    (h : holds mem_unlocked_then_locked j q b) :
    (j = 0 ∧ b = ⟨name_A, UNLOCKED, none⟩) ∨ (j = 1 ∧ b = ⟨name_B, LOCKED, some 7⟩) := by
  have hlt : j < 2 := holds_lt h
  obtain ⟨h1, h2⟩ := h
  interval_cases j
  · cases h1
    cases h2
    exact Or.inl ⟨rfl, rfl⟩
  · cases h1
    cases h2
    exact Or.inr ⟨rfl, rfl⟩

/-! ## Claims C1 to C10 -/

/-- C1 (the code departs from the claim).  Whenever the slot selected by the
admission scan is empty and locking a null reference succeeds, `add` answers
-1 and leaves the memory as it was: the incoming object is not stored and the
return code is not 1. -/
theorem add_selected_empty_slot_rejected (T : descriptor_table) (hT : T = PDT ∨ T = DDT)
    (m : State) (page : Option Nat) (tid c : Nat) (hnull : m.lock_null_rc = 1)
    (hscan : T.add_scan m m.table 0 = some c) (hempty : m.table[c]? = some none) :
    T.add page tid m = some (-1, m) := by
  rcases hT with rfl | rfl
  · exact add_page_selected_empty_acquired m page tid c hnull hscan hempty
  · simp only [DDT, DRM_DDT_add_scan_eq, DRM_DDT_add_directory_eq] at hscan ⊢
    exact add_page_selected_empty_acquired m page tid c hnull hscan hempty

theorem add_selected_empty_slot_rejected_witness :
    PDT.add (some 3) 0 (memory [none, none] [(3, ⟨name_A, UNLOCKED, none⟩)] 1)
      = some (-1, memory [none, none] [(3, ⟨name_A, UNLOCKED, none⟩)] 1) :=
  add_selected_empty_slot_rejected PDT (Or.inl rfl) _ (some 3) 0 0 rfl rfl rfl

/-- C2 (counterexample).  The table holds "AAAAAAAA" and "BBBBBBBB", one
each, so names are unique; after `add` of a second object named "BBBBBBBB"
(address 3), slots 0 and 1 both hold an object of that name. -/
theorem add_duplicates_cached_name :
    name_unique mem_full_AB ∧
    ∃ m1, PDT.add (some 3) 0 mem_full_AB = some (1, m1) ∧
      holds m1 0 3 ⟨name_B, UNLOCKED, none⟩ ∧ holds m1 1 2 ⟨name_B, UNLOCKED, none⟩ ∧
      ¬ name_unique m1 := by
  have hadd := add_page_selected_other mem_full_AB 3 0 0 1 ⟨name_B, UNLOCKED, none⟩
    ⟨name_A, UNLOCKED, none⟩ rfl ⟨rfl, rfl⟩ (by decide) rfl (by decide)
  refine ⟨?_, _, hadd, ⟨rfl, rfl⟩, ⟨rfl, rfl⟩, ?_⟩
  · intro i j p q a b hij hi hj
    rcases mem_full_AB_slots i p a hi with ⟨rfl, rfl⟩ | ⟨rfl, rfl⟩ <;>
      rcases mem_full_AB_slots j q b hj with ⟨rfl, rfl⟩ | ⟨rfl, rfl⟩
    · exact absurd rfl hij
    · decide
    · decide
    · exact absurd rfl hij
  · intro hu
    exact hu 0 1 3 2 ⟨name_B, UNLOCKED, none⟩ ⟨name_B, UNLOCKED, none⟩ (by decide)
      ⟨rfl, rfl⟩ ⟨rfl, rfl⟩ rfl

/-- C2 (amended).  On a table of at least one slot without dangling slots in
which no two occupied slots hold equal names, and for an incoming object whose
name is held by no slot other than the one the admission scan selects, `add`
returns and afterwards no two occupied slots hold equal names; no slot other
than the selected one holds the incoming name, and an object cached under
that name in the selected slot is still there. -/
theorem add_keeps_names_unique (T : descriptor_table) (hT : T = PDT ∨ T = DDT)
    (m : State) (pg tid c : Nat) (o : object)
    (hsize : 0 < m.table.length) (hlive : no_dangling m) (huniq : name_unique m)
    (hpg : m.heap pg = some o)
    (hscan : T.add_scan m m.table 0 = some c)
    (hnew : ∀ j q b, j ≠ c → holds m j q b → ¬ same_name o b) :
    ∃ r m1, T.add (some pg) tid m = some (r, m1) ∧ name_unique m1 ∧
      (∀ j q b, holds m1 j q b → same_name o b → j = c) ∧
      (∀ q b, holds m c q b → same_name o b → ∃ b1, holds m1 c q b1 ∧ b1.name = b.name) := by
  have hT2 : T.add_scan = PGM_PDT_add_scan ∧ T.add = PGM_PDT_add_page := by
    rcases hT with rfl | rfl
    · exact ⟨rfl, rfl⟩
    · exact ⟨DRM_DDT_add_scan_eq, DRM_DDT_add_directory_eq⟩
  rw [hT2.1] at hscan
  rw [hT2.2]
  have hc := add_scan_lt m c hsize hscan
  have honly : ∀ j q b, holds m j q b → same_name o b → j = c := by
    intro j q b h hs
    by_contra hj
    exact hnew j q b hj h hs
  have hget : m.table[c]? = some m.table[c] := List.getElem?_eq_getElem hc
  cases hslot : m.table[c] with
  | none =>
    rw [hslot] at hget
    exact ⟨_, m, add_page_selected_empty m (some pg) tid c hscan hget, huniq, honly,
      fun q b h _ => ⟨b, h, rfl⟩⟩
  | some q =>
    rw [hslot] at hget
    obtain ⟨b, hb⟩ := hlive c q hget
    have hcq : holds m c q b := ⟨hget, hb⟩
    by_cases hbusy : locked_by_other b tid
    · exact ⟨1, m, add_page_selected_refused m (some pg) tid c q b hscan hcq hbusy, huniq, honly,
        fun q b h _ => ⟨b, h, rfl⟩⟩
    by_cases hsame : same_name o b
    · obtain ⟨m1, hadd, htab, _, hnames⟩ :=
        add_page_selected_same m pg tid c q o b hscan hcq hpg hsame
      have back : ∀ (i p : Nat) (a : object), holds m1 i p a →
          ∃ a0, holds m i p a0 ∧ a0.name = a.name := by
        intro i p a h
        have hn := hnames p
        rw [h.2] at hn
        cases hm : m.heap p with
        | none => simp [hm] at hn
        | some a0 =>
          simp only [hm, Option.map_some', Option.some.injEq] at hn
          exact ⟨a0, ⟨by rw [← htab]; exact h.1, hm⟩, hn.symm⟩
      refine ⟨1, m1, hadd, name_unique_of_same_names m m1 htab hnames huniq, ?_, ?_⟩
      · intro j p a h hs
        obtain ⟨a0, ha0, hna⟩ := back j p a h
        apply honly j p a0 ha0
        simp only [same_name, hna]
        exact hs
      · intro q2 b2 h _
        have hn := hnames q2
        rw [h.2] at hn
        cases hm : m1.heap q2 with
        | none => simp [hm] at hn
        | some b1 =>
          simp only [hm, Option.map_some', Option.some.injEq] at hn
          exact ⟨b1, ⟨by rw [htab]; exact h.1, hm⟩, hn⟩
    · have hadd := add_page_selected_other m pg tid c q o b hscan hcq hbusy hpg hsame
      have hpq : pg ≠ q := by
        rintro rfl
        rw [hb] at hpg
        cases hpg
        exact hsame rfl
      -- what a slot of the new memory holds, in terms of the old memory
      have back : ∀ (j p : Nat) (a : object),
          holds { m with
            table := m.table.set c (some pg)
            heap := Function.update m.heap q none
            save_calls := m.save_calls ++ [(q, locked_for b tid)] } j p a →
          (j = c ∧ p = pg ∧ a = o) ∨ (j ≠ c ∧ holds m j p a) := by
        intro j p a h
        obtain ⟨h1, h2⟩ := h
        have hp_ne : p ≠ q := by
          rintro rfl
          simp at h2
        simp only [Function.update_noteq hp_ne] at h2
        by_cases hj : j = c
        · subst hj
          simp only [List.getElem?_set, hc, if_true, Option.some.injEq] at h1
          subst h1
          rw [hpg] at h2
          cases h2
          exact Or.inl ⟨rfl, rfl, rfl⟩
        · simp only [List.getElem?_set, Ne.symm hj, if_false] at h1
          exact Or.inr ⟨hj, h1, h2⟩
      refine ⟨1, _, hadd, ?_, ?_, ?_⟩
      · intro i j p1 p2 a1 a2 hij h1 h2 hs
        rcases back i p1 a1 h1 with ⟨hi, _, ha⟩ | ⟨hi, hm1⟩
        · rcases back j p2 a2 h2 with ⟨hj, _, _⟩ | ⟨hj, hm2⟩
          · exact hij (hi.trans hj.symm)
          · subst ha
            exact hnew j p2 a2 hj hm2 hs
        · rcases back j p2 a2 h2 with ⟨hj, _, ha⟩ | ⟨_, hm2⟩
          · subst ha
            exact hnew i p1 a1 hi hm1 hs.symm
          · exact huniq i j p1 p2 a1 a2 hij hm1 hm2 hs
      · intro j p a h hs
        rcases back j p a h with ⟨hj, _, _⟩ | ⟨hj, hm⟩
        · exact hj
        · exact absurd hs (hnew j p a hj hm)
      · intro q2 b2 h hs
        rw [h.1] at hget
        cases hget
        rw [h.2] at hb
        cases hb
        exact absurd hs hsame

theorem add_keeps_names_unique_witness :
    name_unique mem_full_AB_fresh ∧
    ∃ r m1, PDT.add (some 3) 0 mem_full_AB_fresh = some (r, m1) ∧ name_unique m1 ∧
      (∀ j q b, holds m1 j q b → same_name ⟨name_a0x, UNLOCKED, none⟩ b → j = 0) ∧
      (∀ q b, holds mem_full_AB_fresh 0 q b → same_name ⟨name_a0x, UNLOCKED, none⟩ b →
        ∃ b1, holds m1 0 q b1 ∧ b1.name = b.name) := by
  have huniq : name_unique mem_full_AB_fresh := by
    intro i j p q a b hij hi hj
    rcases mem_full_AB_fresh_slots i p a hi with ⟨rfl, rfl⟩ | ⟨rfl, rfl⟩ <;>
      rcases mem_full_AB_fresh_slots j q b hj with ⟨rfl, rfl⟩ | ⟨rfl, rfl⟩
    · exact absurd rfl hij
    · decide
    · decide
    · exact absurd rfl hij
  refine ⟨huniq, ?_⟩
  exact add_keeps_names_unique PDT (Or.inl rfl) mem_full_AB_fresh 3 0 0 ⟨name_a0x, UNLOCKED, none⟩
    (by decide) (no_dangling_of_all mem_full_AB_fresh rfl) huniq rfl rfl
    (fun j q b hj h => by
      rcases mem_full_AB_fresh_slots j q b h with ⟨rfl, rfl⟩ | ⟨rfl, rfl⟩
      · exact absurd rfl hj
      · decide)

/-- C3 (counterexample).  Slot 1 is empty, yet the scan selects slot 0, whose
unlocked object is written back, freed and replaced by the incoming one. -/
theorem add_evicts_although_slot_empty :
    mem_unlocked_then_empty.table[1]? = some none ∧
    PDT.add_scan mem_unlocked_then_empty mem_unlocked_then_empty.table 0 = some 0 ∧
    ∃ m1, PDT.add (some 3) 0 mem_unlocked_then_empty = some (1, m1) ∧
      m1.table = [some 3, none] ∧ m1.save_calls = [(1, ⟨name_A, LOCKED, some 0⟩)] ∧
      m1.heap 1 = none :=
  ⟨rfl, rfl, _,
    add_page_selected_other mem_unlocked_then_empty 3 0 0 1 ⟨name_B, UNLOCKED, none⟩
      ⟨name_A, UNLOCKED, none⟩ rfl ⟨rfl, rfl⟩ (by decide) rfl (by decide),
    rfl, rfl, by simp⟩

/-- C3 (amended).  When an empty slot exists and every slot in front of the
lowest-index empty slot holds a `LOCKED` object, `add` selects that empty
slot, it returns, and no occupied slot is written back, freed or replaced. -/
theorem add_selects_empty_behind_locked (T : descriptor_table) (hT : T = PDT ∨ T = DDT)
    (m : State) (page : Option Nat) (tid e : Nat)
    (hempty : m.table[e]? = some none)
    (hbefore : ∀ j, j < e → ∃ p o, holds m j p o ∧ o.lock = LOCKED) :
    T.add_scan m m.table 0 = some e ∧
    ∃ r m1, T.add page tid m = some (r, m1) ∧ m1.save_calls = m.save_calls ∧
      ∀ (j p : Nat), m.table[j]? = some (some p) →
        m1.table[j]? = some (some p) ∧ m1.heap p = m.heap p := by
  have hscan : PGM_PDT_add_scan m m.table 0 = some e := by
    have := add_scan_stops_at_empty m m.table e 0 hempty
      (fun j hj => by
        obtain ⟨p, o, h, hl⟩ := hbefore j hj
        exact ⟨p, o, h.1, h.2, hl⟩)
    simpa using this
  have hadd := add_page_selected_empty m page tid e hscan hempty
  rcases hT with rfl | rfl
  · exact ⟨hscan, _, m, hadd, rfl, fun j p h => ⟨h, rfl⟩⟩
  · simp only [DDT, DRM_DDT_add_scan_eq, DRM_DDT_add_directory_eq]
    exact ⟨hscan, _, m, hadd, rfl, fun j p h => ⟨h, rfl⟩⟩

theorem add_selects_empty_behind_locked_witness :
    PDT.add_scan mem_locked_then_empty mem_locked_then_empty.table 0 = some 1 ∧
    ∃ r m1, PDT.add (some 3) 0 mem_locked_then_empty = some (r, m1) ∧
      m1.save_calls = mem_locked_then_empty.save_calls ∧
      ∀ (j p : Nat), mem_locked_then_empty.table[j]? = some (some p) →
        m1.table[j]? = some (some p) ∧ m1.heap p = mem_locked_then_empty.heap p :=
  add_selects_empty_behind_locked PDT (Or.inl rfl) mem_locked_then_empty (some 3) 0 1 rfl
    (fun j hj => by
      have hj0 : j = 0 := by omega
      subst hj0
      exact ⟨1, ⟨name_A, LOCKED, some 7⟩, ⟨rfl, rfl⟩, rfl⟩)

/-- C4 (counterexample).  The only slot is `LOCKED` by thread 7; `add` called
by thread 0 answers 1, not -1. -/
theorem add_all_locked_answers_success :
    holds mem_all_locked 0 1 ⟨name_A, LOCKED, some 7⟩ ∧
    PDT.add (some 3) 0 mem_all_locked = some (1, mem_all_locked) :=
  ⟨⟨rfl, rfl⟩,
    add_page_selected_refused mem_all_locked (some 3) 0 0 1 ⟨name_A, LOCKED, some 7⟩ rfl
      ⟨rfl, rfl⟩ (by decide)⟩

/-- C4 (amended).  On a table (of at least one slot) in which every slot holds
an object `LOCKED` by a thread other than the caller, `add` answers 1 and
leaves the memory, hence every slot, unchanged. -/
theorem add_all_locked_unchanged (T : descriptor_table) (hT : T = PDT ∨ T = DDT)
    (m : State) (page : Option Nat) (tid : Nat)
    (hsize : 0 < m.table.length)
    (hall : ∀ j, j < m.table.length → ∃ p o, holds m j p o ∧ locked_by_other o tid) :
    T.add page tid m = some (1, m) := by
  have hscan : PGM_PDT_add_scan m m.table 0 = some 0 :=
    add_scan_falls_through m m.table 0 (fun j hj => by
      obtain ⟨p, o, h, hl⟩ := hall j hj
      exact ⟨p, o, h.1, h.2, hl.1⟩)
  obtain ⟨p, o, h0, hl⟩ := hall 0 hsize
  have hadd := add_page_selected_refused m page tid 0 p o hscan h0 hl
  rcases hT with rfl | rfl
  · exact hadd
  · simp only [DDT, DRM_DDT_add_directory_eq]
    exact hadd

theorem add_all_locked_unchanged_witness :
    PDT.add (some 3) 0 mem_all_locked = some (1, mem_all_locked) :=
  add_all_locked_unchanged PDT (Or.inl rfl) mem_all_locked (some 3) 0 (by decide)
    (fun j hj => by
      have hj0 : j = 0 := by
        have : j < 1 := hj
        omega
      subst hj0
      exact ⟨1, ⟨name_A, LOCKED, some 7⟩, ⟨rfl, rfl⟩, by decide⟩)

/-- C5 (the code departs from the claim).  An unlocked slot exists, namely an
empty slot with nothing but `LOCKED` objects in front of it, and `add` answers
-1 all the same (locking a null reference succeeds, as in the spec). -/
theorem add_rejects_despite_unlocked_slot (T : descriptor_table) (hT : T = PDT ∨ T = DDT)
    (m : State) (page : Option Nat) (tid e : Nat) (hnull : m.lock_null_rc = 1)
    (hempty : m.table[e]? = some none)
    (hbefore : ∀ j, j < e → ∃ p o, holds m j p o ∧ o.lock = LOCKED) :
    ∃ m1, T.add page tid m = some (-1, m1) := by
  have hscan : PGM_PDT_add_scan m m.table 0 = some e := by
    have := add_scan_stops_at_empty m m.table e 0 hempty
      (fun j hj => by
        obtain ⟨p, o, h, hl⟩ := hbefore j hj
        exact ⟨p, o, h.1, h.2, hl⟩)
    simpa using this
  have hadd := add_page_selected_empty_acquired m page tid e hnull hscan hempty
  rcases hT with rfl | rfl
  · exact ⟨m, hadd⟩
  · simp only [DDT, DRM_DDT_add_directory_eq]
    exact ⟨m, hadd⟩

theorem add_rejects_despite_unlocked_slot_witness :
    mem_two_empty.table[0]? = some none ∧ ∃ m1, PDT.add (some 3) 0 mem_two_empty = some (-1, m1) :=
  ⟨rfl, add_rejects_despite_unlocked_slot PDT (Or.inl rfl) mem_two_empty (some 3) 0 0 rfl rfl
    (fun j hj => absurd hj (Nat.not_lt_zero j))⟩

/-- C6 (counterexample).  The evicted name and the incoming name differ (in
their third byte on), there is no other slot, and yet `find` on the evicted
name does not miss after the `add`: it returns the object just installed,
whose name agrees with the evicted one up to a zero byte. -/
theorem find_evicted_name_hits :
    holds mem_zero_byte 0 1 ⟨name_a0x, UNLOCKED, none⟩ ∧ mem_zero_byte.table.length = 1 ∧
    ¬ same_name ⟨name_a0y, UNLOCKED, none⟩ ⟨name_a0x, UNLOCKED, none⟩ ∧
    ∃ m1, PDT.add (some 3) 0 mem_zero_byte = some (1, m1) ∧ m1.table = [some 3] ∧
      PDT.find (some name_a0x) m1 = some (some 3) :=
  ⟨⟨rfl, rfl⟩, rfl, by decide, _,
    add_page_selected_other mem_zero_byte 3 0 0 1 ⟨name_a0y, UNLOCKED, none⟩
      ⟨name_a0x, UNLOCKED, none⟩ rfl ⟨rfl, rfl⟩ (by decide) rfl (by decide),
    rfl, by
      simp [PDT, PGM_PDT_find_page, PGM_PDT_find_loop, mem_zero_byte, memory, heap_of,
        List.lookup, name_a0x, name_a0y, strncmp, PAGE_NAME_SIZE]⟩

/-- C6 (amended).  When slot `i` holds the lowest-index object that is not
`LOCKED`, with only `LOCKED` objects in front of it, and the incoming object
`o` has a different 8-byte name, `add` saves the old object of slot `i`
exactly once (as locked by the caller), frees it, installs `o` in slot `i`,
leaves every other slot unchanged and answers 1.  Afterwards `find` on the
evicted name misses provided no other slot's name matches it and the name of
`o` does not match it either under the comparison `find` uses (which stops at
the first zero byte). -/
theorem add_evicts_first_unlocked (T : descriptor_table) (hT : T = PDT ∨ T = DDT)
    (m : State) (pg tid i p : Nat) (o a : object)
    (hlive : no_dangling m)
    (hi : holds m i p a) (hunl : a.lock = UNLOCKED)
    (hbefore : ∀ j, j < i → ∃ q b, holds m j q b ∧ b.lock = LOCKED)
    (hpg : m.heap pg = some o) (hdiff : ¬ same_name o a) :
    ∃ m1, T.add (some pg) tid m = some (1, m1) ∧
      m1.save_calls = m.save_calls ++ [(p, locked_for a tid)] ∧
      m1.heap p = none ∧
      m1.table[i]? = some (some pg) ∧ (∀ j, j ≠ i → m1.table[j]? = m.table[j]?) ∧
      (strncmp o.name a.name PAGE_NAME_SIZE ≠ 0 →
        (∀ j q b, j ≠ i → holds m j q b → strncmp b.name a.name PAGE_NAME_SIZE ≠ 0) →
        T.find (some a.name) m1 = some none) := by
  have hscan : PGM_PDT_add_scan m m.table 0 = some i := by
    have := add_scan_stops_at_unlocked m m.table i 0 p a hi.1 hi.2 (by rw [hunl]; decide)
      (fun j hj => by
        obtain ⟨q, b, h, hl⟩ := hbefore j hj
        exact ⟨q, b, h.1, h.2, hl⟩)
    simpa using this
  have hfree : ¬ locked_by_other a tid := by
    intro h
    rw [h.1] at hunl
    cases hunl
  have hadd := add_page_selected_other m pg tid i p o a hscan hi hfree hpg hdiff
  have hlen := holds_lt hi
  have hpq : pg ≠ p := by
    rintro rfl
    rw [hi.2] at hpg
    cases hpg
    exact hdiff rfl
  have hT2 : T.add = PGM_PDT_add_page ∧ ∀ s m, T.find (some s) m = PGM_PDT_find_page (some s) m := by
    rcases hT with rfl | rfl
    · exact ⟨rfl, fun _ _ => rfl⟩
    · exact ⟨DRM_DDT_add_directory_eq, DRM_DDT_find_directory_some⟩
  rw [hT2.1]
  refine ⟨_, hadd, rfl, by simp, by simp [List.getElem?_set, hlen], ?_, ?_⟩
  · intro j hj
    simp [List.getElem?_set, Ne.symm hj]
  · intro hnew hothers
    rw [hT2.2]
    apply find_loop_miss
    intro j q hq
    by_cases hji : j = i
    · subst hji
      simp only [List.getElem?_set, hlen, if_true, Option.some.injEq] at hq
      subst hq
      exact ⟨o, by simp [Function.update_noteq hpq, hpg], hnew⟩
    · simp only [List.getElem?_set, Ne.symm hji, if_false] at hq
      obtain ⟨b, hb⟩ := hlive j q hq
      have hne := hothers j q b hji ⟨hq, hb⟩
      have hqp : q ≠ p := by
        rintro rfl
        rw [hi.2] at hb
        cases hb
        exact hne (strncmp_self _ _)
      exact ⟨b, by simp [Function.update_noteq hqp, hb], hne⟩

theorem add_evicts_first_unlocked_witness :
    ∃ m1, PDT.add (some 3) 0 mem_full_AB = some (1, m1) ∧
      m1.save_calls = [(1, ⟨name_A, LOCKED, some 0⟩)] ∧
      m1.table[0]? = some (some 3) ∧ m1.table[1]? = some (some 2) ∧
      PDT.find (some name_A) m1 = some none := by
  obtain ⟨m1, hadd, hsaved, _, hslot, hframe, hfind⟩ :=
    add_evicts_first_unlocked PDT (Or.inl rfl) mem_full_AB 3 0 0 1 ⟨name_B, UNLOCKED, none⟩
      ⟨name_A, UNLOCKED, none⟩ mem_full_AB_no_dangling ⟨rfl, rfl⟩ rfl
      (fun j hj => absurd hj (Nat.not_lt_zero j)) rfl (by decide)
  refine ⟨m1, hadd, hsaved, hslot, (hframe 1 (by decide)).trans rfl, hfind (by decide) ?_⟩
  intro j q b hj h
  have hlt : j < 2 := holds_lt h
  have hj1 : j = 1 := by omega
  subst hj1
  obtain ⟨h1, h2⟩ := h
  cases h1
  cases h2
  decide

/-- C7.  When the slot selected by the admission scan holds an object with the
same 8-byte name as the incoming one, `add` answers 1, every slot keeps its
pointer, nothing is saved, and the cached object is still live under its
name. -/
theorem add_same_name_keeps_cached (T : descriptor_table) (hT : T = PDT ∨ T = DDT)
    (m : State) (pg tid c q : Nat) (o b : object)
    (hscan : T.add_scan m m.table 0 = some c) (hc : holds m c q b)
    (hpg : m.heap pg = some o) (hsame : same_name o b) :
    ∃ m1, T.add (some pg) tid m = some (1, m1) ∧ m1.table = m.table ∧
      m1.save_calls = m.save_calls ∧ (m1.heap q).map object.name = some b.name := by
  have hT2 : T.add_scan = PGM_PDT_add_scan ∧ T.add = PGM_PDT_add_page := by
    rcases hT with rfl | rfl
    · exact ⟨rfl, rfl⟩
    · exact ⟨DRM_DDT_add_scan_eq, DRM_DDT_add_directory_eq⟩
  rw [hT2.1] at hscan
  rw [hT2.2]
  obtain ⟨m1, hadd, htab, hsaved, hnames⟩ :=
    add_page_selected_same m pg tid c q o b hscan hc hpg hsame
  refine ⟨m1, hadd, htab, hsaved, ?_⟩
  rw [hnames q, hc.2]
  rfl

theorem add_same_name_keeps_cached_witness :
    ∃ m1, PDT.add (some 3) 0 mem_full_BA = some (1, m1) ∧
      m1.table = mem_full_BA.table ∧
      m1.save_calls = mem_full_BA.save_calls ∧
      (m1.heap 2).map object.name = some name_B :=
  add_same_name_keeps_cached PDT (Or.inl rfl) mem_full_BA 3 0 0 2
    ⟨name_B, UNLOCKED, none⟩ ⟨name_B, UNLOCKED, none⟩ rfl ⟨rfl, rfl⟩ rfl (by decide)

/-- C8.  For a valid index `i` of a table without dangling slots,
`flush_index i` either finds the slot empty, answers -1 and changes nothing
(so nothing is saved), or saves exactly the object held in slot `i`, frees it,
empties slot `i` and no other slot, and answers 1. -/
theorem flush_index_contract (T : descriptor_table) (hT : T = PDT ∨ T = DDT)
    (m : State) (i : Nat) (hi : i < m.table.length) (hlive : no_dangling m) :
    (m.table[i]? = some none ∧ T.flush_index i m = some (-1, m)) ∨
    (∃ p o m1, holds m i p o ∧ T.flush_index i m = some (1, m1) ∧
      m1.save_calls = m.save_calls ++ [(p, o)] ∧
      m1.table = m.table.set i none ∧ m1.table[i]? = some none ∧
      (∀ j, j ≠ i → m1.table[j]? = m.table[j]?) ∧
      m1.heap = Function.update m.heap p none) := by
  have hT2 : T.flush_index = PGM_PDT_flush_index := by
    rcases hT with rfl | rfl
    · rfl
    · exact DRM_DDT_flush_index_eq
  rw [hT2]
  have hget : m.table[i]? = some m.table[i] := List.getElem?_eq_getElem hi
  cases hslot : m.table[i] with
  | none =>
    rw [hslot] at hget
    exact Or.inl ⟨hget, flush_index_empty m i hget⟩
  | some p =>
    rw [hslot] at hget
    obtain ⟨o, ho⟩ := hlive i p hget
    refine Or.inr ⟨p, o, _, ⟨hget, ho⟩, flush_index_occupied m i p o ⟨hget, ho⟩, rfl, rfl, ?_, ?_, rfl⟩
    · simp [List.getElem?_set, hi]
    · intro j hj
      simp [List.getElem?_set, Ne.symm hj]

theorem flush_index_contract_witness :
    (mem_full_AB.table[1]? = some none ∧ PDT.flush_index 1 mem_full_AB = some (-1, mem_full_AB)) ∨
    (∃ p o m1, holds mem_full_AB 1 p o ∧ PDT.flush_index 1 mem_full_AB = some (1, m1) ∧
      m1.save_calls = mem_full_AB.save_calls ++ [(p, o)] ∧
      m1.table = mem_full_AB.table.set 1 none ∧ m1.table[1]? = some none ∧
      (∀ j, j ≠ 1 → m1.table[j]? = mem_full_AB.table[j]?) ∧
      m1.heap = Function.update mem_full_AB.heap p none) :=
  flush_index_contract PDT (Or.inl rfl) mem_full_AB 1 (by decide) (by
    intro i p h
    have hi : i < 2 := by
      by_contra hge
      have hlen : mem_full_AB.table.length ≤ i := by
        have : mem_full_AB.table.length = 2 := rfl
        omega
      rw [List.getElem?_eq_none hlen] at h
      cases h
    interval_cases i
    · cases h; exact ⟨_, rfl⟩
    · cases h; exact ⟨_, rfl⟩)

/-- C9 (counterexample).  The store answers the write with -1, yet
`flush_index 0` answers 1 and slot 0 is empty afterwards. -/
theorem flush_index_swallows_write_error :
    holds mem_store_fails 0 1 ⟨name_A, UNLOCKED, none⟩ ∧
    PGM_save_page 1 mem_store_fails
      = some (-1, { mem_store_fails with save_calls := [(1, ⟨name_A, UNLOCKED, none⟩)] }) ∧
    ∃ m1, PDT.flush_index 0 mem_store_fails = some (1, m1) ∧ m1.table[0]? = some none :=
  ⟨⟨rfl, rfl⟩, rfl, _,
    flush_index_occupied mem_store_fails 0 1 ⟨name_A, UNLOCKED, none⟩ ⟨rfl, rfl⟩, rfl⟩

/-- C9 (amended).  `flush_index` does not look at the answer of the save
routine: for every occupied slot `i`, also when saving its object fails (the
store answers something other than 1), the save is attempted once,
`flush_index i` answers 1 and slot `i` is empty afterwards. -/
theorem flush_index_ignores_save_result (T : descriptor_table) (hT : T = PDT ∨ T = DDT)
    (m : State) (i p : Nat) (o : object) (h : holds m i p o) (hfail : m.store_rc o ≠ 1) :
    ∃ rc m0 m1, PGM_save_page p m = some (rc, m0) ∧ rc ≠ 1 ∧
      T.flush_index i m = some (1, m1) ∧ m1.table[i]? = some none ∧
      m1.save_calls = m.save_calls ++ [(p, o)] := by
  have hT2 : T.flush_index = PGM_PDT_flush_index := by
    rcases hT with rfl | rfl
    · rfl
    · exact DRM_DDT_flush_index_eq
  rw [hT2]
  have hi : i < m.table.length := by
    by_contra hge
    have h1 := h.1
    rw [List.getElem?_eq_none (Nat.le_of_not_lt hge)] at h1
    cases h1
  have hsave : PGM_save_page p m
      = some (m.store_rc o, { m with save_calls := m.save_calls ++ [(p, o)] }) := by
    simp only [PGM_save_page, h.2]
  refine ⟨m.store_rc o, _, _, hsave, hfail, flush_index_occupied m i p o h, ?_, rfl⟩
  simp [List.getElem?_set, hi]

theorem flush_index_ignores_save_result_witness :
    ∃ rc m0 m1, PGM_save_page 1 mem_store_fails = some (rc, m0) ∧ rc ≠ 1 ∧
      PDT.flush_index 0 mem_store_fails = some (1, m1) ∧ m1.table[0]? = some none ∧
      m1.save_calls = mem_store_fails.save_calls ++ [(1, ⟨name_A, UNLOCKED, none⟩)] :=
  flush_index_ignores_save_result PDT (Or.inl rfl) mem_store_fails 0 1 ⟨name_A, UNLOCKED, none⟩
    ⟨rfl, rfl⟩ (by decide)

/-- C10 (the code departs from the claim).  Whenever the first occupied slot
holds an object whose lock the caller can acquire, `sync` does not return Ok:
after `flush_index` has cleared the slot, the name for the reload is read
through that very slot, a null-pointer dereference (no outcome). -/
theorem sync_reads_name_from_cleared_slot (T : descriptor_table) (hT : T = PDT ∨ T = DDT)
    (m : State) (tid i p : Nat) (o : object)
    (hbefore : ∀ j, j < i → m.table[j]? = some none)
    (hi : holds m i p o) (hfree : ¬ locked_by_other o tid) :
    T.sync tid m = none := by
  have hlen : i < m.table.length := by
    by_contra hge
    have h1 := hi.1
    rw [List.getElem?_eq_none (Nat.le_of_not_lt hge)] at h1
    cases h1
  have hsync : PGM_PDT_sync tid m = none :=
    sync_loop_reads_cleared_slot tid m.table.length 0 i p m o (Nat.zero_le i) (by omega)
      (fun x _ hx => hbefore x hx) hi hfree
  rcases hT with rfl | rfl
  · exact hsync
  · simp only [DDT, DRM_DDT_sync_eq]
    exact hsync

theorem sync_reads_name_from_cleared_slot_witness :
    holds mem_empty_then_unlocked 1 1 ⟨name_A, UNLOCKED, none⟩ ∧
    PDT.sync 0 mem_empty_then_unlocked = none :=
  ⟨⟨rfl, rfl⟩,
    sync_reads_name_from_cleared_slot PDT (Or.inl rfl) mem_empty_then_unlocked 0 1 1
      ⟨name_A, UNLOCKED, none⟩
      (fun j hj => by
        have hj0 : j = 0 := by omega
        subst hj0
        rfl)
      ⟨rfl, rfl⟩ (by decide)⟩

/-! ## Claims C11 to C18 -/

/-- C11 (the code departs from the claim).  Let slot `k` be the first slot
whose object is `LOCKED` by another thread.  If every slot in front of it is
empty, `sync` answers -1 and leaves the memory as it was.  If some slot in
front of it is occupied, `sync` has no outcome: the first occupied slot is
flushed and the name for its reload is then read through the cleared slot
(a null-pointer dereference), so -1 is never returned and nothing is
reloaded. -/
theorem sync_contended (T : descriptor_table) (hT : T = PDT ∨ T = DDT)
    (m : State) (tid k q : Nat) (b : object) (hlive : no_dangling m)
    (hk : holds m k q b) (hbusy : locked_by_other b tid)
    (hfirst : ∀ (j p : Nat) (o : object), j < k → holds m j p o → ¬ locked_by_other o tid) :
    ((∀ j, j < k → m.table[j]? = some none) → T.sync tid m = some (-1, m)) ∧
    ((∃ j, j < k ∧ m.table[j]? ≠ some none) → T.sync tid m = none) := by
  obtain ⟨_, _, hsync, _, _, _⟩ := table_ops_eq T hT
  rw [hsync]
  have hlen := holds_lt hk
  constructor
  · intro hempty
    exact sync_loop_busy tid m.table.length 0 k q m b (Nat.zero_le k) (by omega)
      (fun x _ hx => hempty x hx) hk hbusy
  · intro hocc
    obtain ⟨i, hik, hne, hmin⟩ := first_occupied_before m.table k hocc
    have hilen : i < m.table.length := Nat.lt_trans hik hlen
    have hget : m.table[i]? = some m.table[i] := List.getElem?_eq_getElem hilen
    cases hslot : m.table[i] with
    | none =>
      rw [hslot] at hget
      exact absurd hget hne
    | some p =>
      rw [hslot] at hget
      obtain ⟨o, ho⟩ := hlive i p hget
      exact sync_loop_reads_cleared_slot tid m.table.length 0 i p m o (Nat.zero_le i)
        (by omega) (fun x _ hx => hmin x hx) ⟨hget, ho⟩ (hfirst i p o hik ⟨hget, ho⟩)

theorem sync_contended_witness :
    holds mem_unlocked_then_locked 0 1 ⟨name_A, UNLOCKED, none⟩ ∧
    holds mem_unlocked_then_locked 1 2 ⟨name_B, LOCKED, some 7⟩ ∧
    PDT.sync 0 mem_unlocked_then_locked = none :=
  ⟨⟨rfl, rfl⟩, ⟨rfl, rfl⟩,
    (sync_contended PDT (Or.inl rfl) mem_unlocked_then_locked 0 1 2 ⟨name_B, LOCKED, some 7⟩
      (no_dangling_of_all mem_unlocked_then_locked rfl) ⟨rfl, rfl⟩ (by decide)
      (fun j p o hj h => by
        have hj0 : j = 0 := by omega
        subst hj0
        obtain ⟨h1, h2⟩ := h
        cases h1
        cases h2
        decide)).2 ⟨0, by decide, by decide⟩⟩

/-- C12 (counterexample).  `add` of the cached "BBBBBBBB" (address 2) to the
full table of `mem_full_AB` evicts slot 0 and leaves the same object in both
slots.  On that table locking `NULL` succeeds, no slot dangles and the caller
can acquire the lock of every occupied slot, yet `clear` does not answer 1:
the iteration for slot 0 saves and frees the object, and the iteration for
slot 1 locks the freed object (no outcome). -/
theorem clear_undefined_on_shared_object :
    ∃ m1, PDT.add (some 2) 0 mem_full_AB = some (1, m1) ∧
      m1.table = [some 2, some 2] ∧ m1.lock_null_rc = 1 ∧ no_dangling m1 ∧
      (∀ (i p : Nat) (o : object), holds m1 i p o → ¬ locked_by_other o 0) ∧
      PDT.clear 0 m1 = none := by
  have hadd := add_page_selected_other mem_full_AB 2 0 0 1 ⟨name_B, UNLOCKED, none⟩
    ⟨name_A, UNLOCKED, none⟩ rfl ⟨rfl, rfl⟩ (by decide) rfl (by decide)
  refine ⟨_, hadd, rfl, rfl, no_dangling_of_all _ rfl, ?_, ?_⟩
  · intro i p o h
    have hlt : i < 2 := holds_lt h
    obtain ⟨h1, h2⟩ := h
    interval_cases i
    · cases h1
      cases h2
      decide
    · cases h1
      cases h2
      decide
  · simp only [PDT, PGM_PDT_clear, List.length_set]
    have hlen : mem_full_AB.table.length = 2 := rfl
    have hstep := clear_loop_step_occupied 0 1 0 2
      { mem_full_AB with
        table := mem_full_AB.table.set 0 (some 2)
        heap := Function.update mem_full_AB.heap 1 none
        save_calls := mem_full_AB.save_calls ++ [(1, locked_for ⟨name_A, UNLOCKED, none⟩ 0)] }
      ⟨name_B, UNLOCKED, none⟩ ⟨rfl, rfl⟩ (by decide)
    rw [hlen, hstep]
    simp [PGM_PDT_clear_loop, PGM_lock_page, mem_full_AB, memory]

/-- C12 (amended).  Locking a null reference succeeds, and the table is well formed
(every occupied slot owns a live object of its own).  If the caller can
acquire the lock of every occupied slot, `clear` answers 1, every slot is
empty afterwards, each object that was held has been saved exactly once (one
save call per occupied slot, in slot order, nothing else) and freed, and no
other object of the heap is touched, so nothing is reloaded.  Otherwise, `k`
being the first slot `LOCKED` by another thread, `clear` answers -1, the slots
in front of `k` are empty and have been flushed, and slot `k` and all later
slots, with their objects, are unchanged. -/
theorem clear_contract (T : descriptor_table) (hT : T = PDT ∨ T = DDT)
    (m : State) (tid : Nat) (hnull : m.lock_null_rc = 1)
    (hlive : no_dangling m) (halias : no_alias m) :
    ((∀ (i p : Nat) (o : object), holds m i p o → ¬ locked_by_other o tid) →
      ∃ m1, T.clear tid m = some (1, m1) ∧ m1.table.length = m.table.length ∧
        all_empty m1 ∧ m1.save_calls = m.save_calls ++ flushed m tid m.table ∧
        (∀ (i p : Nat), m.table[i]? = some (some p) → m1.heap p = none) ∧
        (∀ x : Nat, (∀ i : Nat, m.table[i]? ≠ some (some x)) → m1.heap x = m.heap x)) ∧
    (∀ (k q : Nat) (b : object), holds m k q b → locked_by_other b tid →
      (∀ (j p : Nat) (o : object), j < k → holds m j p o → ¬ locked_by_other o tid) →
      ∃ m1, T.clear tid m = some (-1, m1) ∧
        (∀ j, j < k → m1.table[j]? = some none) ∧
        (∀ j, k ≤ j → m1.table[j]? = m.table[j]?) ∧
        (∀ (j x : Nat), k ≤ j → m.table[j]? = some (some x) → m1.heap x = m.heap x) ∧
        m1.save_calls = m.save_calls ++ flushed m tid (m.table.take k)) := by
  obtain ⟨_, _, _, hclear, _, _⟩ := table_ops_eq T hT
  rw [hclear]
  constructor
  · intro hall
    obtain ⟨m1, hrun, hlen1, _, hmid, _, hsave, hgone, hkept⟩ :=
      clear_loop_run tid m.table.length m.table.length 0 m hnull (by omega) (Nat.zero_le _)
        (Nat.le_refl _) halias
        (fun j p _ _ hp => by
          obtain ⟨o, ho⟩ := hlive j p hp
          exact ⟨o, ho, hall j p o ⟨hp, ho⟩⟩)
        (Or.inl rfl)
    simp only [if_true, List.take_length, List.drop_zero] at hrun hsave
    refine ⟨m1, hrun, hlen1, ?_, hsave, ?_, ?_⟩
    · intro s hs
      obtain ⟨j, hj⟩ := List.getElem?_of_mem hs
      have hjlt : j < m.table.length := by
        rw [← hlen1]
        exact getElem?_lt_of_eq_some hj
      rw [hmid j (Nat.zero_le j) hjlt] at hj
      exact (Option.some.inj hj).symm
    · intro i p hp
      exact hgone i p (Nat.zero_le i) (getElem?_lt_of_eq_some hp) hp
    · intro x hx
      exact hkept x (fun j _ _ => hx j)
  · intro k q b hk hbusy hfirst
    have hklen := holds_lt hk
    obtain ⟨m1, hrun, _, _, hmid, hhigh, hsave, _, hkept⟩ :=
      clear_loop_run tid k m.table.length 0 m hnull (by omega) (Nat.zero_le _)
        (Nat.le_of_lt hklen) halias
        (fun j p _ hj hp => by
          obtain ⟨o, ho⟩ := hlive j p hp
          exact ⟨o, ho, hfirst j p o hj ⟨hp, ho⟩⟩)
        (Or.inr ⟨q, b, hk, hbusy⟩)
    have hne : ¬ k = m.table.length := by omega
    simp only [hne, if_false, List.drop_zero] at hrun hsave
    refine ⟨m1, hrun, fun j hj => hmid j (Nat.zero_le j) hj, hhigh, ?_, hsave⟩
    intro j x hkj hx
    apply hkept x
    intro j2 _ hj2 hx2
    have := halias j2 j x hx2 hx
    omega

theorem clear_contract_witness :
    (∃ m1, PDT.clear 7 mem_unlocked_then_locked = some (1, m1) ∧ all_empty m1 ∧
      m1.save_calls = [(1, ⟨name_A, LOCKED, some 7⟩), (2, ⟨name_B, LOCKED, some 7⟩)]) ∧
    (∃ m1, PDT.clear 0 mem_unlocked_then_locked = some (-1, m1) ∧
      m1.table[0]? = some none ∧ m1.table[1]? = some (some 2) ∧
      m1.heap 2 = some ⟨name_B, LOCKED, some 7⟩ ∧
      m1.save_calls = [(1, ⟨name_A, LOCKED, some 0⟩)]) := by
  have hlive := no_dangling_of_all mem_unlocked_then_locked rfl
  constructor
  · obtain ⟨m1, hrun, _, hempty, hsave, _, _⟩ :=
      (clear_contract PDT (Or.inl rfl) mem_unlocked_then_locked 7 rfl hlive
        mem_unlocked_then_locked_no_alias).1
        (fun i p o h => by
          rcases mem_unlocked_then_locked_slots i p o h with ⟨_, rfl⟩ | ⟨_, rfl⟩ <;> decide)
    exact ⟨m1, hrun, hempty, hsave.trans rfl⟩
  · obtain ⟨m1, hrun, hlow, hhigh, hheap, hsave⟩ :=
      (clear_contract PDT (Or.inl rfl) mem_unlocked_then_locked 0 rfl hlive
        mem_unlocked_then_locked_no_alias).2 1 2 ⟨name_B, LOCKED, some 7⟩ ⟨rfl, rfl⟩ (by decide)
        (fun j p o hj h => by
          rcases mem_unlocked_then_locked_slots j p o h with ⟨_, rfl⟩ | ⟨rfl, _⟩
          · decide
          · omega)
    exact ⟨m1, hrun, hlow 0 (by decide), (hhigh 1 (Nat.le_refl 1)).trans rfl,
      (hheap 1 2 (Nat.le_refl 1) rfl).trans rfl, hsave.trans rfl⟩

/-- C13.  On a table without dangling slots and for a non-null name `s`,
`find` returns the object of the lowest-index occupied slot whose name
compares equal to `s` (by the comparison `find` makes, `strncmp` over at most
8 bytes), and it returns Miss (`NULL`) exactly when no occupied slot's name
compares equal.  The embedding of `find` yields no memory: the source function
writes to no slot and calls no collaborator, so slots and lock states stay as
they are. -/
theorem find_returns_first_match (T : descriptor_table) (hT : T = PDT ∨ T = DDT)
    (m : State) (s : List Nat) (hlive : no_dangling m) :
    (∃ i p o, holds m i p o ∧ strncmp o.name s PAGE_NAME_SIZE = 0 ∧
      (∀ (j q : Nat) (b : object), j < i → holds m j q b →
        strncmp b.name s PAGE_NAME_SIZE ≠ 0) ∧
      T.find (some s) m = some (some p)) ∨
    ((∀ (j q : Nat) (b : object), holds m j q b → strncmp b.name s PAGE_NAME_SIZE ≠ 0) ∧
      T.find (some s) m = some none) := by
  rw [table_find_eq T hT]
  rcases find_loop_first_match m s m.table hlive with
    ⟨i, p, o, hi, hp, hm, hfirst, hres⟩ | ⟨hnone, hres⟩
  · left
    exact ⟨i, p, o, ⟨hi, hp⟩, hm, fun j q b hj h => hfirst j q b hj h.1 h.2, hres⟩
  · right
    exact ⟨fun j q b h => hnone j q b h.1 h.2, hres⟩

theorem find_returns_first_match_witness :
    (∃ i p o, holds mem_full_AB i p o ∧ strncmp o.name name_B PAGE_NAME_SIZE = 0 ∧
      (∀ (j q : Nat) (b : object), j < i → holds mem_full_AB j q b →
        strncmp b.name name_B PAGE_NAME_SIZE ≠ 0) ∧
      PDT.find (some name_B) mem_full_AB = some (some p)) ∨
    ((∀ (j q : Nat) (b : object), holds mem_full_AB j q b →
        strncmp b.name name_B PAGE_NAME_SIZE ≠ 0) ∧
      PDT.find (some name_B) mem_full_AB = some none) :=
  find_returns_first_match PDT (Or.inl rfl) mem_full_AB name_B mem_full_AB_no_dangling

/-- C14.  For a live object `pg`: if some slot holds the pointer `pg`, then
`flush_object` has the outcome of `flush_index` on the lowest-index such slot
(the object is saved once and freed, that slot is emptied, the other slots are
unchanged) and answers 1; if no slot holds the pointer, whatever the names in
the table, `flush_object` answers 1, the table and the save log are unchanged
and the object is freed. -/
theorem flush_object_contract (T : descriptor_table) (hT : T = PDT ∨ T = DDT)
    (m : State) (pg : Nat) (o : object) (hpg : m.heap pg = some o) :
    (∃ i m1, m.table[i]? = some (some pg) ∧ (∀ j, j < i → m.table[j]? ≠ some (some pg)) ∧
      T.flush_index i m = some (1, m1) ∧ T.flush (some pg) m = some (1, m1) ∧
      m1.save_calls = m.save_calls ++ [(pg, o)] ∧ m1.table[i]? = some none ∧
      (∀ j, j ≠ i → m1.table[j]? = m.table[j]?) ∧ m1.heap pg = none) ∨
    ((∀ j : Nat, m.table[j]? ≠ some (some pg)) ∧
      ∃ m1, T.flush (some pg) m = some (1, m1) ∧ m1.table = m.table ∧
        m1.save_calls = m.save_calls ∧ m1.heap = Function.update m.heap pg none) := by
  obtain ⟨_, _, _, _, hflush, hfi⟩ := table_ops_eq T hT
  rw [hflush, hfi]
  rcases flush_search_first pg m.table 0 with ⟨i, hi, hfirst, hres⟩ | ⟨hnone, hres⟩
  · left
    have hlen := getElem?_lt_of_eq_some hi
    have hidx := flush_index_occupied m i pg o ⟨hi, hpg⟩
    simp only [Nat.zero_add] at hres
    refine ⟨i, _, hi, hfirst, hidx, ?_, rfl, ?_, ?_, ?_⟩
    · simp only [PGM_PDT_flush_page, hres, hidx]
    · simp [List.getElem?_set, hlen]
    · intro j hj
      simp [List.getElem?_set, Ne.symm hj]
    · simp
  · right
    refine ⟨hnone, { m with heap := Function.update m.heap pg none }, ?_, rfl, rfl, rfl⟩
    simp only [PGM_PDT_flush_page, hres, PGM_free_page, hpg]

theorem flush_object_contract_witness :
    (∃ i m1, mem_full_AB.table[i]? = some (some 3) ∧
      (∀ j, j < i → mem_full_AB.table[j]? ≠ some (some 3)) ∧
      PDT.flush_index i mem_full_AB = some (1, m1) ∧ PDT.flush (some 3) mem_full_AB = some (1, m1) ∧
      m1.save_calls = mem_full_AB.save_calls ++ [(3, ⟨name_B, UNLOCKED, none⟩)] ∧
      m1.table[i]? = some none ∧
      (∀ j, j ≠ i → m1.table[j]? = mem_full_AB.table[j]?) ∧ m1.heap 3 = none) ∨
    ((∀ j : Nat, mem_full_AB.table[j]? ≠ some (some 3)) ∧
      ∃ m1, PDT.flush (some 3) mem_full_AB = some (1, m1) ∧ m1.table = mem_full_AB.table ∧
        m1.save_calls = mem_full_AB.save_calls ∧
        m1.heap = Function.update mem_full_AB.heap 3 none) :=
  flush_object_contract PDT (Or.inl rfl) mem_full_AB 3 ⟨name_B, UNLOCKED, none⟩ rfl

/-- C15 (counterexample).  Slot 0 holds an object `LOCKED` by thread 7.
`flush_index 0` and `flush_object` on that object, which take no caller
identity and ask for no lock, both clear the slot. -/
theorem flush_clears_slot_locked_by_other :
    holds mem_all_locked 0 1 ⟨name_A, LOCKED, some 7⟩ ∧
    locked_by_other ⟨name_A, LOCKED, some 7⟩ 0 ∧
    (∃ m1, PDT.flush_index 0 mem_all_locked = some (1, m1) ∧ m1.table[0]? = some none) ∧
    (∃ m1, PDT.flush (some 1) mem_all_locked = some (1, m1) ∧ m1.table[0]? = some none) := by
  have hidx := flush_index_occupied mem_all_locked 0 1 ⟨name_A, LOCKED, some 7⟩ ⟨rfl, rfl⟩
  have hsearch : PGM_PDT_flush_search 1 mem_all_locked.table 0 = some 0 := rfl
  have hfl : PGM_PDT_flush_page (some 1) mem_all_locked = PGM_PDT_flush_index 0 mem_all_locked := by
    simp only [PGM_PDT_flush_page, hsearch, hidx]
  exact ⟨⟨rfl, rfl⟩, by decide, ⟨_, hidx, rfl⟩, ⟨_, hfl.trans hidx, rfl⟩⟩

/-- C15 (amended).  If slot `i` holds an object that is `LOCKED` by a thread
other than the caller, a call of `add` by the caller returns and leaves slot
`i` and its object as they were.  `flush_index i` and `flush_object` on that
object do not look at the lock: they save and free the object and clear the
slot (for `flush_object`, the lowest-index slot that holds the object). -/
theorem locked_slot_survives_add_only (T : descriptor_table) (hT : T = PDT ∨ T = DDT)
    (m : State) (pg tid i p : Nat) (o a : object)
    (hlive : no_dangling m) (hpg : m.heap pg = some a)
    (hi : holds m i p o) (hlock : locked_by_other o tid) :
    (∃ r m1, T.add (some pg) tid m = some (r, m1) ∧ holds m1 i p o) ∧
    (∃ m1, T.flush_index i m = some (1, m1) ∧ m1.table[i]? = some none ∧
      m1.heap p = none ∧ m1.save_calls = m.save_calls ++ [(p, o)]) ∧
    (∃ j m1, j ≤ i ∧ m.table[j]? = some (some p) ∧ T.flush (some p) m = some (1, m1) ∧
      m1.table[j]? = some none ∧ m1.heap p = none ∧
      m1.save_calls = m.save_calls ++ [(p, o)]) := by
  obtain ⟨_, hadd, _, _, hflush, hfi⟩ := table_ops_eq T hT
  rw [hadd, hflush, hfi]
  refine ⟨add_page_keeps_locked_slot m pg tid i p o a hlive hpg hi hlock, ?_, ?_⟩
  · refine ⟨_, flush_index_occupied m i p o hi, ?_, by simp, rfl⟩
    simp [List.getElem?_set, holds_lt hi]
  · rcases flush_search_first p m.table 0 with ⟨j, hj, hfirst, hres⟩ | ⟨hnone, _⟩
    · simp only [Nat.zero_add] at hres
      have hji : j ≤ i := by
        by_contra hlt
        exact hfirst i (by omega) hi.1
      have hidx := flush_index_occupied m j p o ⟨hj, hi.2⟩
      have hfl : PGM_PDT_flush_page (some p) m = PGM_PDT_flush_index j m := by
        simp only [PGM_PDT_flush_page, hres, hidx]
      refine ⟨j, _, hji, hj, hfl.trans hidx, ?_, by simp, rfl⟩
      simp [List.getElem?_set, getElem?_lt_of_eq_some hj]
    · exact absurd hi.1 (hnone i)

theorem locked_slot_survives_add_only_witness :
    (∃ r m1, PDT.add (some 3) 0 mem_unlocked_then_locked = some (r, m1) ∧
      holds m1 1 2 ⟨name_B, LOCKED, some 7⟩) ∧
    (∃ m1, PDT.flush_index 1 mem_unlocked_then_locked = some (1, m1) ∧
      m1.table[1]? = some none ∧ m1.heap 2 = none ∧
      m1.save_calls = mem_unlocked_then_locked.save_calls ++ [(2, ⟨name_B, LOCKED, some 7⟩)]) ∧
    (∃ j m1, j ≤ 1 ∧ mem_unlocked_then_locked.table[j]? = some (some 2) ∧
      PDT.flush (some 2) mem_unlocked_then_locked = some (1, m1) ∧
      m1.table[j]? = some none ∧ m1.heap 2 = none ∧
      m1.save_calls = mem_unlocked_then_locked.save_calls ++ [(2, ⟨name_B, LOCKED, some 7⟩)]) :=
  locked_slot_survives_add_only PDT (Or.inl rfl) mem_unlocked_then_locked 3 0 1 2
    ⟨name_B, LOCKED, some 7⟩ ⟨name_B, UNLOCKED, none⟩
    (no_dangling_of_all mem_unlocked_then_locked rfl) rfl ⟨rfl, rfl⟩ (by decide)

/-- C16.  The directory table and the page table are the same functions of the
memory (return code and resulting memory, hence resulting slots) for `add`
and its scan, `sync`, `clear`, `flush_object` and `flush_index`, and `find`
agrees on every non-null name.  The only difference is `find` on a `NULL`
name: the directory table answers Miss, the page table answers Miss only if
no slot is occupied and otherwise hands the null pointer to `strncmp`
(undefined). -/
theorem PDT_DDT_same_cache :
    DDT.add_scan = PDT.add_scan ∧ DDT.add = PDT.add ∧ DDT.sync = PDT.sync ∧
    DDT.clear = PDT.clear ∧ DDT.flush = PDT.flush ∧ DDT.flush_index = PDT.flush_index ∧
    (∀ (s : List Nat) (m : State), DDT.find (some s) m = PDT.find (some s) m) ∧
    (∀ m : State, DDT.find none m = some none) ∧
    (∀ m : State, (∀ s ∈ m.table, s = none) → PDT.find none m = some none) ∧
    (∀ m : State, (∃ s ∈ m.table, s ≠ none) → PDT.find none m = none) :=
  ⟨DRM_DDT_add_scan_eq, DRM_DDT_add_directory_eq, DRM_DDT_sync_eq, DRM_DDT_clear_eq,
    DRM_DDT_flush_directory_eq, DRM_DDT_flush_index_eq, DRM_DDT_find_directory_some,
    fun _ => rfl,
    fun m h => find_loop_all_empty m none m.table h,
    fun m h => find_loop_null_name m m.table h⟩

/-- C17.  Start from a table in which every slot is empty, with any heap and
any answers of the store and of the lock routine on `NULL` (the only lock
request an empty table gives rise to; save and load are never reached).
After every sequence of `add`, `flush_index`, `flush_object`, `sync` and
`clear` calls that runs, the table is the one at the start, so every slot is
still empty and `find` misses for every name; and every sequence of calls
that are defined on an empty table does run, leaving the memory as it was. -/
theorem cache_never_populated (T : descriptor_table) (hT : T = PDT ∨ T = DDT)
    (m : State) (calls : List call) (hinit : all_empty m) :
    (∀ m1, run T calls m = some m1 →
      m1.table = m.table ∧ all_empty m1 ∧ ∀ name, T.find name m1 = some none) ∧
    ((∀ c ∈ calls, defined_on_empty m.table.length c) → run T calls m = some m) := by
  constructor
  · intro m1 hrun
    have htab := run_all_empty T hT calls m m1 hinit hrun
    have h1 : all_empty m1 := by
      unfold all_empty
      rw [htab]
      exact hinit
    exact ⟨htab, h1, find_all_empty T hT m1 h1⟩
  · exact run_defined_on_empty T hT calls m hinit

theorem cache_never_populated_witness :
    all_empty mem_two_empty ∧
    run PDT [call.add (some 3) 0, call.sync 0, call.clear 0, call.flush_index 1, call.flush none]
      mem_two_empty = some mem_two_empty ∧
    ∀ m1, run PDT [call.add (some 3) 0, call.flush (some 3), call.add (some 3) 0] mem_two_empty
        = some m1 →
      m1.table = mem_two_empty.table ∧ all_empty m1 ∧ ∀ name, PDT.find name m1 = some none := by
  have hinit : all_empty mem_two_empty := by
    intro s hs
    simp only [mem_two_empty, memory, List.mem_cons, List.mem_singleton] at hs
    rcases hs with rfl | rfl | hs
    · rfl
    · rfl
    · cases hs
  refine ⟨hinit, (cache_never_populated PDT (Or.inl rfl) mem_two_empty _ hinit).2 ?_,
    (cache_never_populated PDT (Or.inl rfl) mem_two_empty _ hinit).1⟩
  intro c hc
  simp only [List.mem_cons, List.mem_singleton] at hc
  rcases hc with rfl | rfl | rfl | rfl | rfl | hc
  · show 0 < 2
    decide
  · trivial
  · trivial
  · show 1 < 2
    decide
  · rfl
  · cases hc

/-- C18.  For all names (8-byte names in particular): when the test of `add`
(`memcmp` over 8 bytes is 0) holds, the test of `find` (`strncmp` over at most
8 bytes is 0) holds; the converse holds when neither name has a zero byte.
`name_a0y` and `name_a0x`, which have a zero byte, pass the test of `find` and
fail the test of `add`; accordingly `add` installs an object named `name_a0y`
next to a cached `name_a0x`, and `find` on `name_a0x` then returns the new
object. -/
theorem find_and_add_name_tests (a b : List Nat) :
    (memcmp a b PAGE_NAME_SIZE = 0 → strncmp a b PAGE_NAME_SIZE = 0) ∧
    (0 ∉ a → 0 ∉ b → strncmp a b PAGE_NAME_SIZE = 0 → memcmp a b PAGE_NAME_SIZE = 0) ∧
    (strncmp name_a0y name_a0x PAGE_NAME_SIZE = 0 ∧ memcmp name_a0y name_a0x PAGE_NAME_SIZE ≠ 0) ∧
    (holds mem_zero_byte_cached 1 2 ⟨name_a0x, UNLOCKED, none⟩ ∧
      ∃ m1, PDT.add (some 3) 0 mem_zero_byte_cached = some (1, m1) ∧
        holds m1 0 3 ⟨name_a0y, UNLOCKED, none⟩ ∧ holds m1 1 2 ⟨name_a0x, UNLOCKED, none⟩ ∧
        PDT.find (some name_a0x) m1 = some (some 3)) := by
  refine ⟨?_, ?_, ⟨by decide, by decide⟩, ⟨rfl, rfl⟩, _,
    add_page_selected_other mem_zero_byte_cached 3 0 0 1 ⟨name_a0y, UNLOCKED, none⟩
      ⟨name_A, UNLOCKED, none⟩ rfl ⟨rfl, rfl⟩ (by decide) rfl (by decide),
    ⟨rfl, rfl⟩, ⟨rfl, rfl⟩, ?_⟩
  · intro h
    exact strncmp_of_take_eq a b PAGE_NAME_SIZE ((memcmp_eq_zero_iff a b PAGE_NAME_SIZE).1 h)
  · intro ha hb h
    exact (memcmp_eq_zero_iff a b PAGE_NAME_SIZE).2 (take_eq_of_strncmp a b PAGE_NAME_SIZE ha hb h)
  · simp [PDT, PGM_PDT_find_page, PGM_PDT_find_loop, mem_zero_byte_cached, memory, heap_of,
      List.lookup, name_a0x, name_a0y, strncmp, PAGE_NAME_SIZE]

end CordellDBMS
